import Mathlib

/-!
# Verification development for `configgen.go`

The program derives an analysis configuration from a list of discovered files
and an optional project configuration.  This file embeds the three functions
of `configgen.go` that make up the classification engine,

* `StripPathPrefix` (lines 127-134),
* `FilterFiles` (lines 165-186),
* `GenerateConfig` (lines 53-104),

and proves properties of them.

## Conventions of the embedding

* A Go `string` is an immutable byte sequence.  It is represented by a Lean
  `String` whose characters stand for the bytes one by one, so `len(s)` is
  `s.length` and `s[n:]` drops the first `n` characters.
* A Go slice `[]string` is a `List String`; `append(xs, x)` is `xs ++ [x]`.
  A nil slice and an empty slice are both the empty list.
* A run-time panic (slice bounds out of range) is the result `none` of a
  function returning `Option`.
* A Go `error` result is an `Option GoError`, `none` being the nil error.
* The command-line flag `language`, a package-level variable in the source,
  is an explicit parameter.
* The functions of other packages that the code calls (`filepath.Join`,
  `path.Join`, `doublestar.Match`) are the fields of a structure `Lib` that
  the embedded functions take as a parameter; `goLib` further down is a
  concrete model of them.
-/

namespace Configgen

/-! ## Data model -/

/-- Error values of the Go program.  The only error the pattern library
reports is `ErrBadPattern`. -/
inductive GoError where
  | ErrBadPattern
  deriving DecidableEq, Repr

/-- Plain dynamic data: the values a `map[string]interface{}` literal of the
source or a decoded configuration value is made of. -/
inductive GoValue where
  | int (n : Int)
  | str (s : String)
  | map (entries : List (String × GoValue))

/-- Modelled from the spec: the type `types.Analyzer` is declared in the package
`github.com/DeepSourceCorp/artifacts/types`, which is not part of the source
tree.  The source reads its field `Name`; the spec (section 6) describes an
analyzer entry as a record of a name and an opaque metadata value. -/
structure Analyzer where
  Name : String
  Meta : GoValue

/-- The dynamic value held by the field `AnalyzerMeta`, which has the Go type
`interface{}`: nothing (`nil`), a whole `types.Analyzer` value, or plain data
such as a `map[string]interface{}`. -/
inductive Dynamic where
  | nil
  | analyzer (v : Analyzer)
  | value (v : GoValue)

/-- Modelled from the spec: the type `types.DSConfig` (package `types`, not part
of the source tree).  The fields are those that `GenerateConfig` reads. -/
structure DSConfig where
  ExcludePatterns : List String
  TestPatterns : List String
  Analyzers : List Analyzer

/-- Modelled from the spec: the type `types.AnalysisConfig` (package `types`, not
part of the source tree).  The fields are those that `GenerateConfig` writes
and that section 3 of the spec lists. -/
structure AnalysisConfig where
  Files : List String
  ExcludePatterns : List String
  ExcludeFiles : List String
  TestFiles : List String
  TestPatterns : List String
  AnalyzerMeta : Dynamic

/-- The library functions called by the code: `filepath.Join` and `path.Join`
(each applied to two elements) and `doublestar.Match`, which returns a pair
`(matched, err)`. -/
structure Lib where
  filepathJoin : String → String → String
  pathJoin : String → String → String
  doublestarMatch : String → String → Bool × Option GoError

/-! ## The functions of `configgen.go` -/

/-- The slice expression `s[n:]`: it panics (`none`) unless `n ≤ len(s)`. -/
def sliceFrom (s : String) (n : Nat) : Option String :=
  if n ≤ s.length then some (String.mk (s.data.drop n)) else none

/-- The loop of `StripPathPrefix` (lines 129-131): `stripped` is the
accumulator, extended by `file[len(prefix):]` for each file in turn. -/
def stripLoop (pfx : String) : List String → List String → Option (List String)
  | [], stripped => some stripped
  | file :: rest, stripped =>
    match sliceFrom file pfx.length with
    | none => none
    | some s => stripLoop pfx rest (stripped ++ [s])

/-- `StripPathPrefix` (lines 127-134). -/
def StripPathPrefix (pfx : String) (files : List String) : Option (List String) :=
  stripLoop pfx files []

/-- The loop `for i, f := range files { files[i] = filepath.Join("/code", f) }`
(lines 55-57): the slice is updated in place, index by index. -/
def mountLoop (lib : Lib) (files : List String) : List String :=
  (List.range files.length).foldl
    (fun fs i => fs.set i (lib.filepathJoin "/code" (fs.getD i ""))) files

/-- Lines 54-57 of `GenerateConfig`: the path projector. -/
def projectPaths (lib : Lib) (dir : String) (files : List String) : Option (List String) :=
  match StripPathPrefix dir files with
  | none => none
  | some stripped => some (mountLoop lib stripped)

/-- The inner loop of `FilterFiles` (lines 171-178) for one file.  The state
is the pair of the variable `matched` and the slice `excluded`; on a match the
file is appended to `excluded` and the loop is left. -/
def patternLoop (lib : Lib) (pfx file : String) :
    List String → Bool × List String → Bool × List String
  | [], st => st
  | pattern :: rest, (_, excluded) =>
    let matched := (lib.doublestarMatch (lib.pathJoin pfx pattern) file).1
    if matched then (matched, excluded ++ [file])
    else patternLoop lib pfx file rest (matched, excluded)

/-- The outer loop of `FilterFiles` (lines 169-183).  The state is the pair of
the slices `filtered` and `excluded`. -/
def fileLoop (lib : Lib) (pfx : String) (patterns : List String) :
    List String → List String × List String → List String × List String
  | [], st => st
  | file :: rest, (filtered, excluded) =>
    let r := patternLoop lib pfx file patterns (false, excluded)
    let filtered := if !r.1 then filtered ++ [file] else filtered
    fileLoop lib pfx patterns rest (filtered, r.2)

/-- `FilterFiles` (lines 165-186): returns `(filtered, excluded, err)`. -/
def FilterFiles (lib : Lib) (pfx : String) (files patterns : List String) :
    List String × List String × Option GoError :=
  let r := fileLoop lib pfx patterns files ([], [])
  (r.1, r.2, none)

/-- The loop over `dsConfig.Analyzers` (lines 82-87): the first entry whose
name equals the language is stored in `AnalyzerMeta`, and the loop is left. -/
def analyzerLoop (language : String) : List Analyzer → AnalysisConfig → AnalysisConfig
  | [], analysisConfig => analysisConfig
  | v :: rest, analysisConfig =>
    if v.Name = language then { analysisConfig with AnalyzerMeta := Dynamic.analyzer v }
    else analyzerLoop language rest analysisConfig

/-- The `switch *language` of the unconfigured branch (lines 90-99). -/
def defaultMeta (language : String) : Dynamic :=
  if language = "java" then
    Dynamic.value (GoValue.map [("meta", GoValue.map [("java_version", GoValue.int 17)])])
  else
    Dynamic.value (GoValue.map [])

/-- `GenerateConfig` (lines 53-104).  The result is `none` when the call
panics, and otherwise the pair `(config, err)` that the Go function returns. -/
def GenerateConfig (lib : Lib) (language : String) (dir : String) (files : List String)
    (dsConfig : Option DSConfig) : Option (Option AnalysisConfig × Option GoError) :=
  match projectPaths lib dir files with
  | none => none
  | some files =>
    let analysisConfig : AnalysisConfig :=
      { Files := [], ExcludePatterns := [], ExcludeFiles := [], TestFiles := [],
        TestPatterns := [], AnalyzerMeta := Dynamic.nil }
    match dsConfig with
    | some dsConfig =>
      match FilterFiles lib "/code" files dsConfig.ExcludePatterns with
      | (_, _, some err) => some (none, some err)
      | (files, excludedFiles, none) =>
        let analysisConfig :=
          { analysisConfig with
            ExcludePatterns := dsConfig.ExcludePatterns
            ExcludeFiles := excludedFiles
            Files := files }
        match FilterFiles lib "/code" files dsConfig.TestPatterns with
        | (_, _, some err) => some (none, some err)
        | (_, excludedFiles, none) =>
          let analysisConfig :=
            { analysisConfig with
              TestPatterns := dsConfig.TestPatterns
              TestFiles := excludedFiles }
          some (some (analyzerLoop language dsConfig.Analyzers analysisConfig), none)
    | none =>
      let analysisConfig :=
        { analysisConfig with
          Files := files
          AnalyzerMeta := defaultMeta language }
      some (some analysisConfig, none)

/-! ## A model of the library functions

`filepath.Join`, `path.Join` and `doublestar.Match` belong to the Go standard
library and to the package `github.com/bmatcuk/doublestar/v4`; their code is
not part of the source tree.  The theorems about `FilterFiles` and
`GenerateConfig` that do not mention `goLib` hold for every behaviour of these
functions.  The model below is used where a statement depends on what the
functions compute. -/

/-- The inner loop of the `..` case of `Clean`, on the reversed buffer: the
last byte is removed, and removing goes on while the buffer is longer than
`dotdot` and the byte just removed is not a slash. -/
def cleanBacktrack (dotdot : Nat) : List Char → List Char
  | [] => []
  | c :: r => if r.length > dotdot ∧ c ≠ '/' then cleanBacktrack dotdot r else r

/-- The main loop of `Clean`: `rest` is the unread part of the path, `out`
the buffer written so far, `dotdot` the length below which `..` must not
remove anything.  Every step reads at least one byte, so a fuel equal to the
length of the path is never used up. -/
def cleanLoop (rooted : Bool) : Nat → List Char → List Char → Nat → List Char
  | 0, _, out, _ => out
  | fuel + 1, rest, out, dotdot =>
    match rest with
    | [] => out
    | c :: cs =>
      if c = '/' then
        cleanLoop rooted fuel cs out dotdot
      else if c = '.' ∧ (cs = [] ∨ cs.head? = some '/') then
        cleanLoop rooted fuel cs out dotdot
      else if c = '.' ∧ cs.head? = some '.' ∧ (cs.tail = [] ∨ cs.tail.head? = some '/') then
        if out.length > dotdot then
          cleanLoop rooted fuel cs.tail (cleanBacktrack dotdot out.reverse).reverse dotdot
        else if !rooted then
          let out1 := if out.length > 0 then out ++ ['/'] else out
          let out2 := out1 ++ ['.', '.']
          cleanLoop rooted fuel cs.tail out2 out2.length
        else
          cleanLoop rooted fuel cs.tail out dotdot
      else
        let out1 :=
          if (rooted ∧ out.length ≠ 1) ∨ (¬ rooted ∧ out.length ≠ 0) then out ++ ['/'] else out
        cleanLoop rooted fuel (rest.dropWhile (fun x => x != '/'))
          (out1 ++ rest.takeWhile (fun x => x != '/')) dotdot

/-- Modelled from the spec: `path.Clean` of the Go standard library, the lexical
normalisation behind the "join" of sections 4.1 and 4.2.  The model follows
the documented algorithm: multiple slashes become one, `.` elements are
dropped, `..` elements remove the element before them (and are dropped at the
root), and the empty result is `.`. -/
def Clean (path : String) : String :=
  if path = "" then "."
  else
    let rooted : Bool := path.data.head? = some '/'
    let out :=
      if rooted then cleanLoop rooted path.length (path.data.drop 1) ['/'] 1
      else cleanLoop rooted path.length path.data [] 0
    if out.length = 0 then "." else String.mk out

/-- Modelled from the spec: `path.Join` of the Go standard library (on a Unix
system `filepath.Join` computes the same): the non-empty elements are joined
with a slash and the result is cleaned; the join of empty elements is the
empty string. -/
def Join (elem : List String) : String :=
  let size := (elem.map String.length).sum
  if size = 0 then ""
  else
    let buf := elem.foldl
      (fun buf e =>
        if buf.length > 0 ∨ e ≠ "" then (if buf.length > 0 then buf ++ ['/'] else buf) ++ e.data
        else buf) ([] : List Char)
    Clean (String.mk buf)

/-- One member of a bracket class: a single character or a range. -/
inductive ClassItem where
  | single (c : Char)
  | range (lo hi : Char)
  deriving DecidableEq, Repr

/-- The elements of a glob pattern: a literal character, `?`, `*`, the
recursive wildcard `**/` standing at the start of a segment, the recursive
wildcard `**` closing the pattern at the start of a segment, and a bracket
class. -/
inductive Tok where
  | lit (c : Char)
  | any
  | star
  | globstar
  | globstarEnd
  | cls (negate : Bool) (items : List ClassItem)
  deriving DecidableEq, Repr

/-- The body of a bracket class up to the closing `]`.  `last` is the
preceding single character, which a following `-` turns into a range.  The
result is `none` when the class is not closed. -/
def parseClass : Nat → List Char → Option Char → List ClassItem →
    Option (List ClassItem × List Char)
  | 0, _, _, _ => none
  | fuel + 1, pat, last, acc =>
    match pat with
    | [] => none
    | c :: rest =>
      if c = ']' then some (acc, rest)
      else if c = '-' ∧ last.isSome ∧ rest ≠ [] ∧ rest.head? ≠ some ']' then
        match (if rest.head? = some '\\' then rest.tail else rest) with
        | [] => none
        | hi :: rest2 => parseClass fuel rest2 none (acc ++ [ClassItem.range (last.getD hi) hi])
      else if c = '\\' then
        match rest with
        | [] => none
        | e :: rest1 => parseClass fuel rest1 (some e) (acc ++ [ClassItem.single e])
      else parseClass fuel rest (some c) (acc ++ [ClassItem.single c])

/-- The elements of a pattern, or `none` when the pattern is malformed (a
bracket class that is empty or not closed, a backslash at the end).
`startOfSegment` tells whether the position follows a separator: only there
is `**` a recursive wildcard, elsewhere it is a `*`. -/
def tokenize : Nat → Bool → List Char → Option (List Tok)
  | 0, _, _ => none
  | fuel + 1, startOfSegment, pat =>
    match pat with
    | [] => some []
    | c :: rest =>
      if c = '*' then
        if rest.head? = some '*' then
          if startOfSegment ∧ rest.tail = [] then some [Tok.globstarEnd]
          else if startOfSegment ∧ rest.tail.head? = some '/' then
            (tokenize fuel true rest.tail.tail).map (fun ts => Tok.globstar :: ts)
          else (tokenize fuel false rest.tail).map (fun ts => Tok.star :: ts)
        else (tokenize fuel false rest).map (fun ts => Tok.star :: ts)
      else if c = '?' then (tokenize fuel false rest).map (fun ts => Tok.any :: ts)
      else if c = '[' then
        let negate : Bool := rest.head? = some '!' ∨ rest.head? = some '^'
        let body := if negate then rest.tail else rest
        if body = [] ∨ body.head? = some ']' then none
        else
          match parseClass fuel body none [] with
          | none => none
          | some (items, rest1) =>
            (tokenize fuel false rest1).map (fun ts => Tok.cls negate items :: ts)
      else if c = '\\' then
        match rest with
        | [] => none
        | e :: rest1 => (tokenize fuel (e = '/') rest1).map (fun ts => Tok.lit e :: ts)
      else (tokenize fuel (c = '/') rest).map (fun ts => Tok.lit c :: ts)

/-- Whether the character `n` belongs to a member of a bracket class. -/
def classItemMatches (n : Char) : ClassItem → Bool
  | ClassItem.single c => c = n
  | ClassItem.range lo hi => lo.toNat ≤ n.toNat ∧ n.toNat ≤ hi.toNat

/-- The wildcard `*`: the rest of the pattern, `k`, matches the name after some
number of leading characters, none of them a separator. -/
def starLoop (k : List Char → Bool) : List Char → Bool
  | [] => k []
  | c :: cs => k (c :: cs) || (c != '/' && starLoop k cs)

/-- The rest of the pattern, `k`, matches the name after one of its
separators. -/
def afterSeparator (k : List Char → Bool) : List Char → Bool
  | [] => false
  | c :: cs => (c == '/' && k cs) || afterSeparator k cs

/-- The patterns that match the empty rest of a name: the empty pattern, `*`,
`**`, `**/`, `/**` and `/**/` (so that `dir/**` matches `dir` itself). -/
def zeroLength (toks : List Tok) : Bool :=
  toks = [] ∨ toks = [Tok.star] ∨ toks = [Tok.globstarEnd] ∨ toks = [Tok.globstar] ∨
    toks = [Tok.lit '/', Tok.globstarEnd] ∨ toks = [Tok.lit '/', Tok.globstar]

/-- Whether a tokenized pattern matches a name. -/
def matchToks : List Tok → List Char → Bool
  | [] => fun name => name.isEmpty
  | tok :: rest => fun name =>
    match name with
    | [] => zeroLength (tok :: rest)
    | n :: ns =>
      match tok with
      | Tok.lit c => c = n && matchToks rest ns
      | Tok.any => n != '/' && matchToks rest ns
      | Tok.cls negate items => (items.any (classItemMatches n) != negate) && matchToks rest ns
      | Tok.star => starLoop (matchToks rest) (n :: ns)
      | Tok.globstar => matchToks rest (n :: ns) || afterSeparator (matchToks rest) (n :: ns)
      | Tok.globstarEnd => true

/-- Modelled from the spec: `doublestar.Match` (package
`github.com/bmatcuk/doublestar/v4`, not part of the source tree), with the
separator `/`.  Section 4.2: `*` matches within a path segment, `**` matches
across segment boundaries (zero or more segments), `?` and bracket classes
match single characters; a malformed pattern is reported as `ErrBadPattern`
together with the answer `false`.  A backslash makes the next character
literal.  The spec does not describe brace alternatives, and the model has
none: braces and commas are literal characters. -/
def Match (pattern name : String) : Bool × Option GoError :=
  match tokenize (pattern.length + 1) true pattern.data with
  | none => (false, some GoError.ErrBadPattern)
  | some toks => (matchToks toks name.data, none)

/-- The model of the library functions. -/
def goLib : Lib where
  filepathJoin := fun a b => Join [a, b]
  pathJoin := fun a b => Join [a, b]
  doublestarMatch := Match

/-! ## Path elements -/

/-- The elements of a path: the pieces between its slashes, from left to
right.  The list is never empty; a path without a slash is its only element. -/
def pathElems : List Char → List (List Char)
  | [] => [[]]
  | c :: cs =>
    if c = '/' then [] :: pathElems cs
    else (c :: (pathElems cs).headD []) :: (pathElems cs).tail

/-- The elements of a path that are neither empty nor `.`. -/
def realElems (s : List Char) : List (List Char) :=
  (pathElems s).filter (fun e => decide (e ≠ [] ∧ e ≠ ['.']))

/-- The path made of the given elements, each introduced by a slash. -/
def renderElems (es : List (List Char)) : List Char :=
  (es.map (fun e => '/' :: e)).flatten

/-- A remainder of a raw path after the root that is already clean: no `..`
element, and nothing but elements that are neither empty nor `.`, each
introduced by a single slash. -/
def cleanRemainder (r : List Char) : Prop :=
  ['.', '.'] ∉ pathElems r ∧ r = renderElems (realElems r)

instance (r : List Char) : Decidable (cleanRemainder r) := by
  unfold cleanRemainder
  exact inferInstance

/-! ## Definitions in the words of the specification -/

/-- The classification predicate of section 4.2: some pattern of the list,
joined onto the mount prefix, matches the path. -/
def matchesAny (lib : Lib) (pfx : String) (patterns : List String) (file : String) : Bool :=
  patterns.any (fun p => (lib.doublestarMatch (lib.pathJoin pfx p) file).1)

/-- The classifier of section 4.2 as a plain boolean classification: `kept`
are the paths that match no pattern, `matched` those that match some pattern,
both in input order. -/
def classify (lib : Lib) (pfx : String) (files patterns : List String) :
    List String × List String :=
  (files.filter (fun f => !matchesAny lib pfx patterns f),
    files.filter (fun f => matchesAny lib pfx patterns f))

/-- The projector of section 4.1 as an element-wise map: the first `len(root)`
characters of each raw path are removed and the rest is joined onto the mount
prefix `/code`. -/
def project (lib : Lib) (root : String) (raw : List String) : List String :=
  raw.map (fun f => lib.filepathJoin "/code" (String.mk (f.data.drop root.length)))

/-- The analyzer entry selected for a language: the first entry of the list
whose name equals the language, stored as a whole; `nil` when there is
none. -/
def selectAnalyzer (language : String) (analyzers : List Analyzer) : Dynamic :=
  match analyzers.find? (fun v => decide (v.Name = language)) with
  | some v => Dynamic.analyzer v
  | none => Dynamic.nil

/-- A configuration without its per-language metadata: the part of the result
that the classification determines. -/
def withoutMeta (c : AnalysisConfig) : AnalysisConfig :=
  { c with AnalyzerMeta := Dynamic.nil }

/-! ## The worked scenario of section 8 -/

/-- The discovered files of the scenario, under the root `/repo`. -/
def scenarioFiles : List String :=
  ["/repo/a.go", "/repo/vendor/x.go", "/repo/a_test.go"]

/-- The project configuration of the scenario. -/
def scenarioConfig : DSConfig :=
  { ExcludePatterns := ["vendor/**"], TestPatterns := ["*_test.go"], Analyzers := [] }

/-- A project configuration that declares one analyzer, for the language `go`. -/
def goAnalyzerConfig : DSConfig :=
  { ExcludePatterns := [], TestPatterns := [],
    Analyzers := [{ Name := "go", Meta := GoValue.map [("import_root", GoValue.str "example.com/m")] }] }

/-! ## Lemmas on the loops -/

theorem patternLoop_false (lib : Lib) (pfx file : String) (patterns excluded : List String) :
    patternLoop lib pfx file patterns (false, excluded) =
      (matchesAny lib pfx patterns file,
        if matchesAny lib pfx patterns file then excluded ++ [file] else excluded) := by
  induction patterns with
  | nil => simp [patternLoop, matchesAny]
  | cons p ps ih =>
    unfold patternLoop
    by_cases h : (lib.doublestarMatch (lib.pathJoin pfx p) file).1 = true
    · simp [h, matchesAny]
    · have h0 : (lib.doublestarMatch (lib.pathJoin pfx p) file).1 = false := by
        simpa using h
      simp only [h0, Bool.false_eq_true, if_false, ih]
      simp [matchesAny, h0]

theorem fileLoop_eq (lib : Lib) (pfx : String) (patterns files filtered excluded : List String) :
    fileLoop lib pfx patterns files (filtered, excluded) =
      (filtered ++ (classify lib pfx files patterns).1,
        excluded ++ (classify lib pfx files patterns).2) := by
  induction files generalizing filtered excluded with
  | nil => simp [fileLoop, classify]
  | cons f fs ih =>
    unfold fileLoop
    simp only [patternLoop_false, ih]
    by_cases h : matchesAny lib pfx patterns f = true
    · simp [h, classify]
    · have h0 : matchesAny lib pfx patterns f = false := by simpa using h
      simp [h0, classify]

theorem FilterFiles_eq (lib : Lib) (pfx : String) (files patterns : List String) :
    FilterFiles lib pfx files patterns =
      ((classify lib pfx files patterns).1, (classify lib pfx files patterns).2, none) := by
  simp [FilterFiles, fileLoop_eq]

theorem mountLoop_aux (g : String → String) (pre suf : List String) :
    (List.range' pre.length suf.length).foldl
      (fun fs i => fs.set i (g (fs.getD i ""))) (pre ++ suf) = pre ++ suf.map g := by
  induction suf generalizing pre with
  | nil => simp
  | cons x suf ih =>
    have h := ih (pre ++ [g x])
    simp only [List.length_append, List.length_singleton, List.append_assoc,
      List.singleton_append] at h
    simp only [List.length_cons, List.range'_succ, List.foldl_cons, List.map_cons]
    rw [← h]
    congr 1
    simp [List.getD_eq_getElem?_getD, List.getElem_append_right]

theorem mountLoop_eq_map (lib : Lib) (files : List String) :
    mountLoop lib files = files.map (lib.filepathJoin "/code") := by
  have h := mountLoop_aux (lib.filepathJoin "/code") [] files
  simpa [mountLoop, List.range_eq_range'] using h

theorem sliceFrom_of_le (s : String) (n : Nat) (h : n ≤ s.length) :
    sliceFrom s n = some (String.mk (s.data.drop n)) := by
  simp [sliceFrom, h]

theorem length_le_of_isPrefix (root f : String) (h : root.data <+: f.data) :
    root.length ≤ f.length := by
  exact h.length_le

theorem stripLoop_eq (pfx : String) (files stripped : List String)
    (h : ∀ f ∈ files, pfx.length ≤ f.length) :
    stripLoop pfx files stripped =
      some (stripped ++ files.map (fun f => String.mk (f.data.drop pfx.length))) := by
  induction files generalizing stripped with
  | nil => simp [stripLoop]
  | cons f fs ih =>
    have hf : pfx.length ≤ f.length := h f (List.mem_cons_self f fs)
    have hfs : ∀ x ∈ fs, pfx.length ≤ x.length := fun x hx => h x (List.mem_cons_of_mem f hx)
    simp [stripLoop, sliceFrom_of_le f _ hf, ih _ hfs]

theorem projectPaths_eq (lib : Lib) (root : String) (raw : List String)
    (h : ∀ f ∈ raw, root.data <+: f.data) :
    projectPaths lib root raw = some (project lib root raw) := by
  have hlen : ∀ f ∈ raw, root.length ≤ f.length :=
    fun f hf => length_le_of_isPrefix root f (h f hf)
  unfold projectPaths StripPathPrefix
  rw [stripLoop_eq root raw [] hlen]
  simp only [List.nil_append, mountLoop_eq_map, project, List.map_map]
  rfl

theorem analyzerLoop_eq (language : String) (analyzers : List Analyzer) (c : AnalysisConfig)
    (hc : c.AnalyzerMeta = Dynamic.nil) :
    analyzerLoop language analyzers c =
      { c with AnalyzerMeta := selectAnalyzer language analyzers } := by
  induction analyzers with
  | nil => simp [analyzerLoop, selectAnalyzer, ← hc]
  | cons v vs ih =>
    unfold analyzerLoop
    by_cases hv : v.Name = language
    · simp [hv, selectAnalyzer]
    · simp only [hv, if_false, ih]
      simp [selectAnalyzer, List.find?, hv]

theorem GenerateConfig_configured (lib : Lib) (language root : String) (raw : List String)
    (ds : DSConfig) (h : ∀ f ∈ raw, root.data <+: f.data) :
    GenerateConfig lib language root raw (some ds) =
      some (some
        { Files := (classify lib "/code" (project lib root raw) ds.ExcludePatterns).1
          ExcludePatterns := ds.ExcludePatterns
          ExcludeFiles := (classify lib "/code" (project lib root raw) ds.ExcludePatterns).2
          TestFiles :=
            (classify lib "/code"
              (classify lib "/code" (project lib root raw) ds.ExcludePatterns).1
              ds.TestPatterns).2
          TestPatterns := ds.TestPatterns
          AnalyzerMeta := selectAnalyzer language ds.Analyzers }, none) := by
  simp only [GenerateConfig, projectPaths_eq lib root raw h, FilterFiles_eq]
  rw [analyzerLoop_eq _ _ _ rfl]

theorem GenerateConfig_unconfigured (lib : Lib) (language root : String) (raw : List String)
    (h : ∀ f ∈ raw, root.data <+: f.data) :
    GenerateConfig lib language root raw none =
      some (some
        { Files := project lib root raw
          ExcludePatterns := []
          ExcludeFiles := []
          TestFiles := []
          TestPatterns := []
          AnalyzerMeta := defaultMeta language }, none) := by
  simp only [GenerateConfig, projectPaths_eq lib root raw h]

theorem mem_classify_fst (lib : Lib) (pfx : String) (files patterns : List String) (x : String) :
    x ∈ (classify lib pfx files patterns).1 ↔ x ∈ files ∧ matchesAny lib pfx patterns x = false := by
  simp [classify, List.mem_filter]

theorem mem_classify_snd (lib : Lib) (pfx : String) (files patterns : List String) (x : String) :
    x ∈ (classify lib pfx files patterns).2 ↔ x ∈ files ∧ matchesAny lib pfx patterns x = true := by
  simp [classify, List.mem_filter]

theorem classify_perm (lib : Lib) (pfx : String) (files patterns : List String) :
    ((classify lib pfx files patterns).1 ++ (classify lib pfx files patterns).2).Perm files := by
  have h := List.filter_append_perm (fun f => matchesAny lib pfx patterns f) files
  exact List.perm_append_comm.trans h

theorem classify_fst_sublist (lib : Lib) (pfx : String) (files patterns : List String) :
    (classify lib pfx files patterns).1.Sublist files :=
  List.filter_sublist files

theorem classify_snd_sublist (lib : Lib) (pfx : String) (files patterns : List String) :
    (classify lib pfx files patterns).2.Sublist files :=
  List.filter_sublist files

theorem scenario_rooted : ∀ f ∈ scenarioFiles, "/repo".data <+: f.data := by
  decide

/-! ## Lemmas on the model of the library functions

The loops of the model run on a fuel.  The fuel that `Clean` and `Match` supply
is never used up: more fuel gives the same result. -/

theorem dropWhile_length_le (p : Char → Bool) (l : List Char) :
    (l.dropWhile p).length ≤ l.length := by
  induction l with
  | nil => simp
  | cons a l ih =>
    simp only [List.dropWhile_cons]
    split
    · exact Nat.le_succ_of_le ih
    · exact Nat.le_refl _

theorem cleanLoop_fuel (rooted : Bool) (fuel extra : Nat) (rest out : List Char) (dotdot : Nat)
    (h : rest.length ≤ fuel) :
    cleanLoop rooted (fuel + extra) rest out dotdot = cleanLoop rooted fuel rest out dotdot := by
  induction fuel generalizing rest out dotdot with
  | zero =>
    have hnil : rest = [] := List.length_eq_zero.mp (Nat.le_zero.mp h)
    subst hnil
    cases extra <;> simp [cleanLoop]
  | succ n ih =>
    rw [Nat.add_right_comm]
    cases rest with
    | nil => simp [cleanLoop]
    | cons c cs =>
      have hcs : cs.length ≤ n := by simpa using h
      have htail : cs.tail.length ≤ n := by
        have := List.length_tail cs
        omega
      simp only [cleanLoop]
      have hdrop : ¬ c = '/' →
          (List.dropWhile (fun x => x != '/') (c :: cs)).length ≤ n := by
        intro h1
        have hc : (c != '/') = true := by simpa using h1
        simp only [List.dropWhile_cons, hc, if_true]
        exact (dropWhile_length_le _ cs).trans hcs
      split_ifs with h1
      all_goals first
        | exact ih _ _ _ hcs
        | exact ih _ _ _ htail
        | exact ih _ _ _ (hdrop h1)

theorem parseClass_rest_length (fuel : Nat) (pat : List Char) (last : Option Char)
    (acc items : List ClassItem) (rest : List Char)
    (h : parseClass fuel pat last acc = some (items, rest)) : rest.length < pat.length := by
  induction fuel generalizing pat last acc with
  | zero => simp [parseClass] at h
  | succ n ih =>
    cases pat with
    | nil => simp [parseClass] at h
    | cons c cs =>
      simp only [parseClass] at h
      have htl := List.length_tail cs
      split at h
      · simp only [Option.some.injEq, Prod.mk.injEq] at h
        rw [← h.2]
        simp
      · split at h
        · split at h
          · simp at h
          · rename_i hi rest2 heq
            have h3 := ih _ _ _ h
            have hle : (hi :: rest2).length ≤ cs.length := by
              rw [← heq]
              split
              · omega
              · exact Nat.le_refl _
            simp only [List.length_cons] at hle ⊢
            omega
        · split at h
          · split at h
            · simp at h
            · have h3 := ih _ _ _ h
              simp only [List.length_cons] at h3 ⊢
              omega
          · have h3 := ih _ _ _ h
            simp only [List.length_cons] at h3 ⊢
            omega

theorem parseClass_fuel (fuel extra : Nat) (pat : List Char) (last : Option Char)
    (acc : List ClassItem) (h : pat.length < fuel) :
    parseClass (fuel + extra) pat last acc = parseClass fuel pat last acc := by
  induction fuel generalizing pat last acc with
  | zero => exact absurd h (Nat.not_lt_zero _)
  | succ n ih =>
    rw [Nat.add_right_comm]
    cases pat with
    | nil => simp [parseClass]
    | cons c cs =>
      have hcs : cs.length < n := by simpa using h
      have htl := List.length_tail cs
      simp only [parseClass]
      split
      · rfl
      · split
        · split
          · rfl
          · rename_i hi rest2 heq
            apply ih
            have hle : (hi :: rest2).length ≤ cs.length := by
              rw [← heq]
              split
              · omega
              · exact Nat.le_refl _
            simp only [List.length_cons] at hle
            omega
        · split
          · split
            · rfl
            · apply ih
              simp only [List.length_cons] at hcs
              omega
          · exact ih _ _ _ hcs

theorem tokenize_fuel (fuel extra : Nat) (startOfSegment : Bool) (pat : List Char)
    (h : pat.length < fuel) :
    tokenize (fuel + extra) startOfSegment pat = tokenize fuel startOfSegment pat := by
  induction fuel generalizing pat startOfSegment with
  | zero => exact absurd h (Nat.not_lt_zero _)
  | succ n ih =>
    rw [Nat.add_right_comm]
    cases pat with
    | nil => simp [tokenize]
    | cons c cs =>
      have hcs : cs.length < n := by simpa using h
      have htl := List.length_tail cs
      have htl2 := List.length_tail cs.tail
      have htail : cs.tail.length < n := by omega
      have htail2 : cs.tail.tail.length < n := by omega
      simp only [tokenize]
      split
      · split
        · split
          · rfl
          · split
            · rw [ih _ _ htail2]
            · rw [ih _ _ htail]
        · rw [ih _ _ hcs]
      · split
        · rw [ih _ _ hcs]
        · split
          · have key : ∀ (body : List Char) (neg : Bool), body.length < n →
                (if body = [] ∨ body.head? = some ']' then none
                  else
                    match parseClass (n + extra) body none [] with
                    | none => none
                    | some (items, rest1) =>
                      (tokenize (n + extra) false rest1).map
                        (fun ts => Tok.cls neg items :: ts)) =
                (if body = [] ∨ body.head? = some ']' then none
                  else
                    match parseClass n body none [] with
                    | none => none
                    | some (items, rest1) =>
                      (tokenize n false rest1).map (fun ts => Tok.cls neg items :: ts)) := by
              intro body neg hbody
              split
              · rfl
              · rw [parseClass_fuel n extra _ _ _ hbody]
                split
                · rfl
                · rename_i items rest1 heq
                  have hlt := parseClass_rest_length _ _ _ _ _ _ heq
                  rw [ih _ _ (by omega)]
            split
            · exact key _ _ htail
            · exact key _ _ hcs
          · split
            · split
              · rfl
              · rw [ih _ _ (by simp only [List.length_cons] at hcs; omega)]
            · rw [ih _ _ hcs]

theorem tokenize_enough_fuel (pattern : String) (extra : Nat) :
    tokenize (pattern.length + 1 + extra) true pattern.data =
      tokenize (pattern.length + 1) true pattern.data :=
  tokenize_fuel _ _ _ _ (Nat.lt_succ_self _)

theorem Clean_examples :
    Clean "a/c" = "a/c" ∧ Clean "a//c" = "a/c" ∧ Clean "a/c/." = "a/c" ∧
    Clean "a/c/b/.." = "a/c" ∧ Clean "/../a/c" = "/a/c" ∧
    Clean "/../a/b/../././/c" = "/a/c" ∧ Clean "" = "." ∧ Clean "abc/def/../../.." = ".." ∧
    Join ["/code", "a.go"] = "/code/a.go" ∧ Join ["/code", "/a.go"] = "/code/a.go" ∧
    Join ["/code", ""] = "/code" ∧ Join ["", ""] = "" := by
  decide

theorem Match_examples :
    Match "a/**/b" "a/b" = (true, none) ∧ Match "a/**/b" "a/x/y/b" = (true, none) ∧
    Match "**/c" "a/b/c" = (true, none) ∧ Match "a/*/c" "a/b/c" = (true, none) ∧
    Match "a/*/c" "a/b/x/c" = (false, none) ∧ Match "a*b" "a/b" = (false, none) ∧
    Match "a?b" "a/b" = (false, none) ∧ Match "a?b" "axb" = (true, none) ∧
    Match "a/**" "a" = (true, none) ∧ Match "a/**" "a/b/c" = (true, none) ∧
    Match "[a-c]x" "bx" = (true, none) ∧ Match "[!a-c]x" "bx" = (false, none) ∧
    Match "a[" "a" = (false, some GoError.ErrBadPattern) ∧
    Match "a\\" "a" = (false, some GoError.ErrBadPattern) := by
  decide

theorem goLib_error_contract (p f : String) :
    (goLib.doublestarMatch p f).2 ≠ none → (goLib.doublestarMatch p f).1 = false := by
  intro h
  show (Match p f).1 = false
  have h2 : (Match p f).2 ≠ none := h
  unfold Match at h2 ⊢
  cases htok : tokenize (p.length + 1) true p.data with
  | none => rfl
  | some toks =>
    rw [htok] at h2
    exact absurd rfl h2

theorem Match_open_bracket (f : String) :
    goLib.doublestarMatch (goLib.pathJoin "/code" "[") f = (false, some GoError.ErrBadPattern) :=
  rfl

/-! ## The claims -/

/-- Claim C1. Partition completeness.  When every raw path has the root as a
prefix, `GenerateConfig` returns a configuration, with or without a project
configuration; a path is in `Files` or in `ExcludeFiles` exactly when it is one
of the projected paths, and no path is in both.  For `FilterFiles`, the two
outputs together are a permutation of the input (every path with its
multiplicity), no path is in both, and the lengths add up to the length of the
input. -/
theorem partition_completeness (lib : Lib) (language root : String) (raw : List String)
    (dsConfig : Option DSConfig) (hroot : ∀ f ∈ raw, root.data <+: f.data) :
    (∃ ps cfg, projectPaths lib root raw = some ps ∧
      GenerateConfig lib language root raw dsConfig = some (some cfg, none) ∧
      (∀ x, x ∈ cfg.Files ∨ x ∈ cfg.ExcludeFiles ↔ x ∈ ps) ∧
      (∀ x, ¬ (x ∈ cfg.Files ∧ x ∈ cfg.ExcludeFiles))) ∧
    (∀ (pfx : String) (files patterns : List String),
      ((FilterFiles lib pfx files patterns).1 ++
        (FilterFiles lib pfx files patterns).2.1).Perm files ∧
      (∀ x, ¬ (x ∈ (FilterFiles lib pfx files patterns).1 ∧
        x ∈ (FilterFiles lib pfx files patterns).2.1)) ∧
      (FilterFiles lib pfx files patterns).1.length +
        (FilterFiles lib pfx files patterns).2.1.length = files.length) := by
  constructor
  · refine ⟨project lib root raw, ?_⟩
    cases dsConfig with
    | none =>
      refine ⟨_, projectPaths_eq lib root raw hroot,
        GenerateConfig_unconfigured lib language root raw hroot, ?_, ?_⟩
      · intro x; simp
      · intro x; simp
    | some ds =>
      refine ⟨_, projectPaths_eq lib root raw hroot,
        GenerateConfig_configured lib language root raw ds hroot, ?_, ?_⟩
      · intro x
        simp only [mem_classify_fst, mem_classify_snd]
        cases matchesAny lib "/code" ds.ExcludePatterns x <;> simp
      · intro x
        simp only [mem_classify_fst, mem_classify_snd]
        cases matchesAny lib "/code" ds.ExcludePatterns x <;> simp
  · intro pfx files patterns
    simp only [FilterFiles_eq]
    refine ⟨classify_perm lib pfx files patterns, ?_, ?_⟩
    · intro x
      simp only [mem_classify_fst, mem_classify_snd]
      cases matchesAny lib pfx patterns x <;> simp
    · have h := (classify_perm lib pfx files patterns).length_eq
      simpa using h

/-- The partition law at the scenario of section 8. -/
theorem partition_completeness_witness :
    (∀ f ∈ scenarioFiles, "/repo".data <+: f.data) ∧
    ∃ ps cfg, projectPaths goLib "/repo" scenarioFiles = some ps ∧
      GenerateConfig goLib "go" "/repo" scenarioFiles (some scenarioConfig) =
        some (some cfg, none) ∧
      (∀ x, x ∈ cfg.Files ∨ x ∈ cfg.ExcludeFiles ↔ x ∈ ps) ∧
      (∀ x, ¬ (x ∈ cfg.Files ∧ x ∈ cfg.ExcludeFiles)) :=
  ⟨scenario_rooted,
    (partition_completeness goLib "go" "/repo" scenarioFiles (some scenarioConfig)
      scenario_rooted).1⟩

/-- Claim C2. The short-circuiting loops of `FilterFiles` compute the plain
boolean classification `classify`: `matched` is the input filtered by "some
pattern, joined onto the prefix, matches the file" and `kept` is the input
filtered by the negation.  Hence the result is the same for two pattern lists
with the same members, whatever their order and repetitions, and a path that
matches no pattern is kept. -/
theorem FilterFiles_refines_classify (lib : Lib) (pfx : String) (files patterns : List String) :
    FilterFiles lib pfx files patterns =
      (files.filter (fun f =>
          !patterns.any (fun p => (lib.doublestarMatch (lib.pathJoin pfx p) f).1)),
        files.filter (fun f =>
          patterns.any (fun p => (lib.doublestarMatch (lib.pathJoin pfx p) f).1)),
        none) ∧
    FilterFiles lib pfx files patterns =
      ((classify lib pfx files patterns).1, (classify lib pfx files patterns).2, none) ∧
    (∀ patterns2 : List String, (∀ p, p ∈ patterns ↔ p ∈ patterns2) →
      FilterFiles lib pfx files patterns2 = FilterFiles lib pfx files patterns) ∧
    (∀ f ∈ files,
      (∀ p ∈ patterns, (lib.doublestarMatch (lib.pathJoin pfx p) f).1 = false) →
      f ∈ (FilterFiles lib pfx files patterns).1 ∧
        f ∉ (FilterFiles lib pfx files patterns).2.1) := by
  refine ⟨?_, FilterFiles_eq lib pfx files patterns, ?_, ?_⟩
  · rw [FilterFiles_eq]
    rfl
  · intro patterns2 hmem
    have hany : ∀ f, matchesAny lib pfx patterns2 f = matchesAny lib pfx patterns f := by
      intro f
      rw [Bool.eq_iff_iff]
      simp only [matchesAny, List.any_eq_true]
      constructor
      · rintro ⟨p, hp, hm⟩
        exact ⟨p, (hmem p).2 hp, hm⟩
      · rintro ⟨p, hp, hm⟩
        exact ⟨p, (hmem p).1 hp, hm⟩
    simp only [FilterFiles_eq, classify, hany]
  · intro f hf hno
    have h0 : matchesAny lib pfx patterns f = false := by
      rw [Bool.eq_false_iff]
      intro h
      simp only [matchesAny, List.any_eq_true] at h
      obtain ⟨p, hp, hm⟩ := h
      rw [hno p hp] at hm
      exact Bool.false_ne_true hm
    simp only [FilterFiles_eq, mem_classify_fst, mem_classify_snd]
    simp [hf, h0]

/-- The order and repetition of the patterns do not matter: a concrete case. -/
theorem FilterFiles_refines_classify_witness :
    (∀ p, p ∈ ["*.go", "*.txt"] ↔ p ∈ ["*.txt", "*.go", "*.txt"]) ∧
    FilterFiles goLib "/code" ["/code/a.go", "/code/b.md"] ["*.txt", "*.go", "*.txt"] =
      FilterFiles goLib "/code" ["/code/a.go", "/code/b.md"] ["*.go", "*.txt"] :=
  ⟨by intro p; simp only [List.mem_cons, List.mem_singleton, List.not_mem_nil, or_false]; tauto,
    (FilterFiles_refines_classify goLib "/code" ["/code/a.go", "/code/b.md"]
      ["*.go", "*.txt"]).2.2.1 ["*.txt", "*.go", "*.txt"] (by intro p; simp only [List.mem_cons, List.mem_singleton, List.not_mem_nil, or_false]; tauto)⟩

/-- Claim C3. Order preservation.  Both outputs of `FilterFiles` are sublists
(order-preserving subsequences) of the input file list.  When every raw path
has the root as a prefix, `Files` and `ExcludeFiles` returned by
`GenerateConfig` are sublists of the list of projected paths. -/
theorem order_preservation (lib : Lib) (language root : String) (raw : List String)
    (dsConfig : Option DSConfig) (hroot : ∀ f ∈ raw, root.data <+: f.data) :
    (∀ (pfx : String) (files patterns : List String),
      (FilterFiles lib pfx files patterns).1.Sublist files ∧
      (FilterFiles lib pfx files patterns).2.1.Sublist files) ∧
    (∃ ps cfg, projectPaths lib root raw = some ps ∧
      GenerateConfig lib language root raw dsConfig = some (some cfg, none) ∧
      cfg.Files.Sublist ps ∧ cfg.ExcludeFiles.Sublist ps) := by
  constructor
  · intro pfx files patterns
    simp only [FilterFiles_eq]
    exact ⟨classify_fst_sublist lib pfx files patterns, classify_snd_sublist lib pfx files patterns⟩
  · refine ⟨project lib root raw, ?_⟩
    cases dsConfig with
    | none =>
      exact ⟨_, projectPaths_eq lib root raw hroot,
        GenerateConfig_unconfigured lib language root raw hroot, List.Sublist.refl _,
        List.nil_sublist _⟩
    | some ds =>
      exact ⟨_, projectPaths_eq lib root raw hroot,
        GenerateConfig_configured lib language root raw ds hroot,
        classify_fst_sublist lib "/code" _ _, classify_snd_sublist lib "/code" _ _⟩

/-- Order preservation at the scenario of section 8. -/
theorem order_preservation_witness :
    (∀ f ∈ scenarioFiles, "/repo".data <+: f.data) ∧
    ∃ ps cfg, projectPaths goLib "/repo" scenarioFiles = some ps ∧
      GenerateConfig goLib "go" "/repo" scenarioFiles (some scenarioConfig) =
        some (some cfg, none) ∧
      cfg.Files.Sublist ps ∧ cfg.ExcludeFiles.Sublist ps :=
  ⟨scenario_rooted,
    (order_preservation goLib "go" "/repo" scenarioFiles (some scenarioConfig)
      scenario_rooted).2⟩

/-- Claim C4. Test-set subset law.  With a project configuration present and
every raw path having the root as a prefix, `GenerateConfig` returns a
configuration in which `TestFiles` is `Files` (the list after exclusion)
filtered by "some test pattern matches": it is a sublist of `Files`, none of
its members is in `ExcludeFiles`, and a projected path that matches an exclude
pattern is in `ExcludeFiles` and not in `TestFiles`, whether or not it matches
a test pattern. -/
theorem test_set_subset (lib : Lib) (language root : String) (raw : List String)
    (ds : DSConfig) (hroot : ∀ f ∈ raw, root.data <+: f.data) :
    ∃ ps cfg, projectPaths lib root raw = some ps ∧
      GenerateConfig lib language root raw (some ds) = some (some cfg, none) ∧
      cfg.TestFiles = cfg.Files.filter (fun f =>
        ds.TestPatterns.any (fun p => (lib.doublestarMatch (lib.pathJoin "/code" p) f).1)) ∧
      cfg.TestFiles.Sublist cfg.Files ∧
      (∀ x ∈ cfg.TestFiles, x ∈ cfg.Files ∧ x ∉ cfg.ExcludeFiles) ∧
      (∀ x ∈ ps,
        ds.ExcludePatterns.any
            (fun p => (lib.doublestarMatch (lib.pathJoin "/code" p) x).1) = true →
          x ∈ cfg.ExcludeFiles ∧ x ∉ cfg.TestFiles ∧ x ∉ cfg.Files) := by
  refine ⟨project lib root raw, _, projectPaths_eq lib root raw hroot,
    GenerateConfig_configured lib language root raw ds hroot, rfl,
    classify_snd_sublist lib "/code" _ _, ?_, ?_⟩
  · intro x hx
    have hx1 := ((mem_classify_snd lib "/code" _ _ x).1 hx).1
    refine ⟨hx1, ?_⟩
    intro hx2
    have h1 := ((mem_classify_fst lib "/code" _ _ x).1 hx1).2
    have h2 := ((mem_classify_snd lib "/code" _ _ x).1 hx2).2
    rw [h1] at h2
    exact Bool.false_ne_true h2
  · intro x hx hm
    have hm2 : matchesAny lib "/code" ds.ExcludePatterns x = true := hm
    have hnot : x ∉ (classify lib "/code" (project lib root raw) ds.ExcludePatterns).1 := by
      intro h
      have h1 := ((mem_classify_fst lib "/code" _ _ x).1 h).2
      rw [hm2] at h1
      exact Bool.false_ne_true h1.symm
    refine ⟨(mem_classify_snd lib "/code" _ _ x).2 ⟨hx, hm2⟩, ?_, hnot⟩
    intro h
    exact hnot ((mem_classify_snd lib "/code" _ _ x).1 h).1

/-- The subset law at the scenario of section 8. -/
theorem test_set_subset_witness :
    (∀ f ∈ scenarioFiles, "/repo".data <+: f.data) ∧
    ∃ ps cfg, projectPaths goLib "/repo" scenarioFiles = some ps ∧
      GenerateConfig goLib "go" "/repo" scenarioFiles (some scenarioConfig) =
        some (some cfg, none) ∧
      cfg.TestFiles = cfg.Files.filter (fun f =>
        scenarioConfig.TestPatterns.any
          (fun p => (goLib.doublestarMatch (goLib.pathJoin "/code" p) f).1)) ∧
      cfg.TestFiles.Sublist cfg.Files ∧
      (∀ x ∈ cfg.TestFiles, x ∈ cfg.Files ∧ x ∉ cfg.ExcludeFiles) ∧
      (∀ x ∈ ps,
        scenarioConfig.ExcludePatterns.any
            (fun p => (goLib.doublestarMatch (goLib.pathJoin "/code" p) x).1) = true →
          x ∈ cfg.ExcludeFiles ∧ x ∉ cfg.TestFiles ∧ x ∉ cfg.Files) :=
  ⟨scenario_rooted, test_set_subset goLib "go" "/repo" scenarioFiles scenarioConfig scenario_rooted⟩

/-- Claim C5. The worked scenario of section 8, on the model `goLib` of the library
functions: with root `/repo`, the files `/repo/a.go`, `/repo/vendor/x.go`,
`/repo/a_test.go`, the exclude pattern `vendor/**` and the test pattern
`*_test.go`, `GenerateConfig` returns `Files = [/code/a.go, /code/a_test.go]`,
`ExcludeFiles = [/code/vendor/x.go]` and `TestFiles = [/code/a_test.go]`,
whatever the language and the declared analyzers.  In the model `*` stays
within a segment and `**` crosses segment boundaries. -/
theorem worked_scenario (language : String) (analyzers : List Analyzer) :
    (∃ cfg,
      GenerateConfig goLib language "/repo"
          ["/repo/a.go", "/repo/vendor/x.go", "/repo/a_test.go"]
          (some { ExcludePatterns := ["vendor/**"], TestPatterns := ["*_test.go"],
                  Analyzers := analyzers }) = some (some cfg, none) ∧
      cfg.Files = ["/code/a.go", "/code/a_test.go"] ∧
      cfg.ExcludeFiles = ["/code/vendor/x.go"] ∧
      cfg.TestFiles = ["/code/a_test.go"]) ∧
    Match "/code/*_test.go" "/code/pkg/a_test.go" = (false, none) ∧
    Match "/code/vendor/**" "/code/vendor/pkg/sub/x.go" = (true, none) := by
  refine ⟨⟨_, GenerateConfig_configured goLib language "/repo" _ _ scenario_rooted, ?_, ?_, ?_⟩,
    ?_, ?_⟩ <;> rfl

/-- Claim C6. Lenient pattern failure.  `FilterFiles` always returns the nil error,
and whenever `GenerateConfig` returns, it returns a configuration and the nil
error.  For a pattern library that answers `false` whenever it reports an
error: a path for which every pattern either fails with an error or does not
match is kept and not excluded, while a path that some pattern of the list
matches is excluded, whatever errors the other patterns produce; and with a
single pattern whose evaluation fails on every path, every path is kept. -/
theorem lenient_pattern_failure (lib : Lib)
    (hcontract : ∀ p f, (lib.doublestarMatch p f).2 ≠ none → (lib.doublestarMatch p f).1 = false)
    (pfx : String) (files patterns : List String) :
    (FilterFiles lib pfx files patterns).2.2 = none ∧
    (∀ (language root : String) (raw : List String) (dsConfig : Option DSConfig)
        (r : Option AnalysisConfig × Option GoError),
      GenerateConfig lib language root raw dsConfig = some r → r.1.isSome = true ∧ r.2 = none) ∧
    (∀ f ∈ files,
      (∀ p ∈ patterns, (lib.doublestarMatch (lib.pathJoin pfx p) f).2 ≠ none ∨
        (lib.doublestarMatch (lib.pathJoin pfx p) f).1 = false) →
      f ∈ (FilterFiles lib pfx files patterns).1 ∧
        f ∉ (FilterFiles lib pfx files patterns).2.1) ∧
    (∀ f ∈ files,
      (∃ p ∈ patterns, (lib.doublestarMatch (lib.pathJoin pfx p) f).1 = true) →
      f ∈ (FilterFiles lib pfx files patterns).2.1 ∧
        f ∉ (FilterFiles lib pfx files patterns).1) ∧
    (∀ bad : String,
      (∀ f ∈ files, (lib.doublestarMatch (lib.pathJoin pfx bad) f).2 ≠ none) →
      FilterFiles lib pfx files [bad] = (files, [], none)) := by
  refine ⟨rfl, ?_, ?_, ?_, ?_⟩
  · intro language root raw dsConfig r hr
    unfold GenerateConfig at hr
    cases hp : projectPaths lib root raw with
    | none => rw [hp] at hr; exact absurd hr (by simp)
    | some ps =>
      rw [hp] at hr
      cases dsConfig with
      | none =>
        simp only [Option.some.injEq] at hr
        subst hr
        exact ⟨rfl, rfl⟩
      | some ds =>
        simp only [FilterFiles_eq, Option.some.injEq] at hr
        subst hr
        exact ⟨rfl, rfl⟩
  · intro f hf hall
    have h0 : matchesAny lib pfx patterns f = false := by
      rw [Bool.eq_false_iff]
      intro h
      simp only [matchesAny, List.any_eq_true] at h
      obtain ⟨p, hp, hm⟩ := h
      rcases hall p hp with herr | hno
      · rw [hcontract _ _ herr] at hm
        exact Bool.false_ne_true hm
      · rw [hno] at hm
        exact Bool.false_ne_true hm
    simp only [FilterFiles_eq, mem_classify_fst, mem_classify_snd]
    simp [hf, h0]
  · rintro f hf ⟨p, hp, hm⟩
    have h1 : matchesAny lib pfx patterns f = true := by
      simp only [matchesAny, List.any_eq_true]
      exact ⟨p, hp, hm⟩
    simp only [FilterFiles_eq, mem_classify_fst, mem_classify_snd]
    simp [hf, h1]
  · intro bad hbad
    have h0 : ∀ f ∈ files, matchesAny lib pfx [bad] f = false := by
      intro f hf
      simp only [matchesAny, List.any_cons, List.any_nil, Bool.or_false]
      exact hcontract _ _ (hbad f hf)
    have hkept : files.filter (fun f => !matchesAny lib pfx [bad] f) = files := by
      rw [List.filter_eq_self]
      intro f hf
      simp [h0 f hf]
    have hmatched : files.filter (fun f => matchesAny lib pfx [bad] f) = [] := by
      rw [List.filter_eq_nil_iff]
      intro f hf
      simp [h0 f hf]
    simp only [FilterFiles_eq, classify, hkept, hmatched]

/-- Lenient failure on the model of the library, where the pattern `[` is
malformed: as the single pattern it keeps every path, and before the pattern
`*.go` it does not stop that pattern from excluding `/code/a.go`. -/
theorem lenient_pattern_failure_witness :
    (∀ p f, (goLib.doublestarMatch p f).2 ≠ none → (goLib.doublestarMatch p f).1 = false) ∧
    FilterFiles goLib "/code" ["/code/a.go", "/code/b.md"] ["["] =
      (["/code/a.go", "/code/b.md"], [], none) ∧
    (∀ paths : List String, FilterFiles goLib "/code" paths ["["] = (paths, [], none)) ∧
    FilterFiles goLib "/code" ["/code/a.go", "/code/b.md"] ["[", "*.go"] =
      (["/code/b.md"], ["/code/a.go"], none) :=
  ⟨goLib_error_contract,
    (lenient_pattern_failure goLib goLib_error_contract "/code" ["/code/a.go", "/code/b.md"]
      []).2.2.2.2 "[" (fun f _ => by rw [Match_open_bracket]; simp),
    fun paths =>
      (lenient_pattern_failure goLib goLib_error_contract "/code" paths []).2.2.2.2 "["
        (fun f _ => by rw [Match_open_bracket]; simp),
    rfl⟩

/-- Claim C7. Empty-pattern identity: with the empty pattern list `FilterFiles`
returns the input as `kept`, in the same order, and the empty list as
`matched`. -/
theorem empty_pattern_identity (lib : Lib) (pfx : String) (files : List String) :
    FilterFiles lib pfx files [] = (files, [], none) := by
  simp [FilterFiles_eq, classify, matchesAny]

/-- Claim C8. Path projection is an element-wise map.  When every raw path has the
root as a prefix, `StripPathPrefix` returns the raw paths without their first
`len(root)` characters, and the projected list built by `GenerateConfig` has
the length of the input; its `i`-th element is the join of `/code` with the
`i`-th raw path without its first `len(root)` characters, which are the root
itself. -/
theorem projection_elementwise (lib : Lib) (root : String) (raw : List String)
    (hroot : ∀ f ∈ raw, root.data <+: f.data) :
    ∃ stripped ps, StripPathPrefix root raw = some stripped ∧
      projectPaths lib root raw = some ps ∧
      stripped.length = raw.length ∧
      ps.length = raw.length ∧
      ∀ (i : Nat) (hi : i < raw.length),
        root.data ++ (raw.get ⟨i, hi⟩).data.drop root.length = (raw.get ⟨i, hi⟩).data ∧
        stripped[i]? = some (String.mk ((raw.get ⟨i, hi⟩).data.drop root.length)) ∧
        ps[i]? = some (lib.filepathJoin "/code"
          (String.mk ((raw.get ⟨i, hi⟩).data.drop root.length))) := by
  have hlen : ∀ f ∈ raw, root.length ≤ f.length :=
    fun f hf => length_le_of_isPrefix root f (hroot f hf)
  refine ⟨raw.map (fun f => String.mk (f.data.drop root.length)), project lib root raw, ?_,
    projectPaths_eq lib root raw hroot, ?_, ?_, ?_⟩
  · unfold StripPathPrefix
    rw [stripLoop_eq root raw [] hlen]
    rfl
  · simp
  · simp [project]
  · intro i hi
    refine ⟨?_, ?_, ?_⟩
    · obtain ⟨t, ht⟩ := hroot (raw.get ⟨i, hi⟩) (List.get_mem raw i hi)
      rw [← ht]
      show root.data ++ List.drop root.data.length (root.data ++ t) = root.data ++ t
      rw [List.drop_left]
    · simp [List.getElem?_map, List.getElem?_eq_getElem hi]
    · simp [project, List.getElem?_map, List.getElem?_eq_getElem hi]

/-- The projection at the scenario of section 8. -/
theorem projection_elementwise_witness :
    (∀ f ∈ scenarioFiles, "/repo".data <+: f.data) ∧
    projectPaths goLib "/repo" scenarioFiles =
      some ["/code/a.go", "/code/vendor/x.go", "/code/a_test.go"] ∧
    ∃ stripped ps, StripPathPrefix "/repo" scenarioFiles = some stripped ∧
      projectPaths goLib "/repo" scenarioFiles = some ps ∧
      stripped.length = scenarioFiles.length ∧
      ps.length = scenarioFiles.length ∧
      ∀ (i : Nat) (hi : i < scenarioFiles.length),
        "/repo".data ++ (scenarioFiles.get ⟨i, hi⟩).data.drop "/repo".length =
          (scenarioFiles.get ⟨i, hi⟩).data ∧
        stripped[i]? = some (String.mk ((scenarioFiles.get ⟨i, hi⟩).data.drop "/repo".length)) ∧
        ps[i]? = some (goLib.filepathJoin "/code"
          (String.mk ((scenarioFiles.get ⟨i, hi⟩).data.drop "/repo".length))) :=
  ⟨scenario_rooted, rfl, projection_elementwise goLib "/repo" scenarioFiles scenario_rooted⟩

/-- Claim C9, as the claim states it, fails: without a project configuration and
with the language `java`, `GenerateConfig` returns a configuration whose
metadata is the object `{meta: {java_version: 17}}`, which is not the object
`{java_version: 17}`. -/
theorem unconfigured_java_meta_counterexample :
    ∃ cfg, GenerateConfig goLib "java" "/repo" scenarioFiles none = some (some cfg, none) ∧
      cfg.AnalyzerMeta =
        Dynamic.value (GoValue.map [("meta", GoValue.map [("java_version", GoValue.int 17)])]) ∧
      cfg.AnalyzerMeta ≠ Dynamic.value (GoValue.map [("java_version", GoValue.int 17)]) := by
  refine ⟨_, GenerateConfig_unconfigured goLib "java" "/repo" scenarioFiles scenario_rooted,
    rfl, ?_⟩
  simp [defaultMeta]

/-- Claim C9, amended.  Without a project configuration, and every raw path having
the root as a prefix, `GenerateConfig` returns `Files` equal to the projected
paths in input order, empty `ExcludeFiles`, `ExcludePatterns`, `TestFiles` and
`TestPatterns`, and the metadata of the static table: for the language `java`
the object `{meta: {java_version: 17}}`, for every other language the empty
object. -/
theorem unconfigured_project (lib : Lib) (language root : String) (raw : List String)
    (hroot : ∀ f ∈ raw, root.data <+: f.data) :
    ∃ ps, projectPaths lib root raw = some ps ∧
      ps = raw.map (fun f => lib.filepathJoin "/code" (String.mk (f.data.drop root.length))) ∧
      GenerateConfig lib language root raw none =
        some (some
          { Files := ps
            ExcludePatterns := []
            ExcludeFiles := []
            TestFiles := []
            TestPatterns := []
            AnalyzerMeta :=
              if language = "java" then
                Dynamic.value
                  (GoValue.map [("meta", GoValue.map [("java_version", GoValue.int 17)])])
              else Dynamic.value (GoValue.map []) }, none) :=
  ⟨project lib root raw, projectPaths_eq lib root raw hroot, rfl,
    GenerateConfig_unconfigured lib language root raw hroot⟩

/-- The unconfigured project at the files of section 8, for the language
`java`. -/
theorem unconfigured_project_witness :
    (∀ f ∈ scenarioFiles, "/repo".data <+: f.data) ∧
    GenerateConfig goLib "java" "/repo" scenarioFiles none =
      some (some
        { Files := ["/code/a.go", "/code/vendor/x.go", "/code/a_test.go"]
          ExcludePatterns := []
          ExcludeFiles := []
          TestFiles := []
          TestPatterns := []
          AnalyzerMeta :=
            Dynamic.value
              (GoValue.map [("meta", GoValue.map [("java_version", GoValue.int 17)])]) },
        none) :=
  ⟨scenario_rooted, by
    obtain ⟨ps, hps, -, h⟩ := unconfigured_project goLib "java" "/repo" scenarioFiles scenario_rooted
    have hps2 : projectPaths goLib "/repo" scenarioFiles =
        some ["/code/a.go", "/code/vendor/x.go", "/code/a_test.go"] := rfl
    rw [hps2] at hps
    simp only [Option.some.injEq] at hps
    subst hps
    exact h⟩

/-- Claim C10, as the claim states it, fails: with a project configuration that
declares the analyzer `go` and with the language `go`, `GenerateConfig` returns
a configuration whose metadata is the whole analyzer entry, which is not the
metadata value of that entry. -/
theorem configured_meta_counterexample :
    ∃ cfg, GenerateConfig goLib "go" "/repo" scenarioFiles (some goAnalyzerConfig) =
        some (some cfg, none) ∧
      cfg.AnalyzerMeta = Dynamic.analyzer
        { Name := "go", Meta := GoValue.map [("import_root", GoValue.str "example.com/m")] } ∧
      cfg.AnalyzerMeta ≠
        Dynamic.value (GoValue.map [("import_root", GoValue.str "example.com/m")]) := by
  refine ⟨_, GenerateConfig_configured goLib "go" "/repo" scenarioFiles goAnalyzerConfig
    scenario_rooted, rfl, ?_⟩
  simp [selectAnalyzer, goAnalyzerConfig]

/-- Claim C10, amended.  With a project configuration, and every raw path having
the root as a prefix, `GenerateConfig` returns the nil error and stores in
`AnalyzerMeta` the first declared analyzer entry whose name equals the
language, as a whole and unmodified (its name and its metadata together); when
no entry has that name, `AnalyzerMeta` stays nil, for the language `java` as
for any other. -/
theorem configured_meta_selection (lib : Lib) (language root : String) (raw : List String)
    (ds : DSConfig) (hroot : ∀ f ∈ raw, root.data <+: f.data) :
    ∃ cfg, GenerateConfig lib language root raw (some ds) = some (some cfg, none) ∧
      (∀ (before after : List Analyzer) (v : Analyzer),
        ds.Analyzers = before ++ v :: after → (∀ u ∈ before, u.Name ≠ language) →
        v.Name = language → cfg.AnalyzerMeta = Dynamic.analyzer v) ∧
      ((∀ u ∈ ds.Analyzers, u.Name ≠ language) → cfg.AnalyzerMeta = Dynamic.nil) := by
  refine ⟨_, GenerateConfig_configured lib language root raw ds hroot, ?_, ?_⟩
  · intro before after v hsplit hbefore hv
    show selectAnalyzer language ds.Analyzers = Dynamic.analyzer v
    rw [hsplit]
    clear hsplit
    induction before with
    | nil => simp [selectAnalyzer, List.find?, hv]
    | cons u us ih =>
      have hu : u.Name ≠ language := hbefore u (List.mem_cons_self u us)
      have hus : ∀ w ∈ us, w.Name ≠ language :=
        fun w hw => hbefore w (List.mem_cons_of_mem u hw)
      have := ih hus
      simpa [selectAnalyzer, List.find?, hu] using this
  · intro hnone
    show selectAnalyzer language ds.Analyzers = Dynamic.nil
    have hfind : ds.Analyzers.find? (fun v => decide (v.Name = language)) = none := by
      rw [List.find?_eq_none]
      intro u hu
      simpa using hnone u hu
    simp [selectAnalyzer, hfind]

/-- The selection at a configuration that declares the analyzer `go`: for the
language `go` the whole entry is stored. -/
theorem configured_meta_selection_witness :
    (∀ f ∈ scenarioFiles, "/repo".data <+: f.data) ∧
    ∃ cfg, GenerateConfig goLib "go" "/repo" scenarioFiles (some goAnalyzerConfig) =
        some (some cfg, none) ∧
      cfg.AnalyzerMeta = Dynamic.analyzer
        { Name := "go", Meta := GoValue.map [("import_root", GoValue.str "example.com/m")] } := by
  refine ⟨scenario_rooted, ?_⟩
  obtain ⟨cfg, hcfg, hfirst, -⟩ :=
    configured_meta_selection goLib "go" "/repo" scenarioFiles goAnalyzerConfig scenario_rooted
  exact ⟨cfg, hcfg, hfirst [] [] _ rfl (by simp) rfl⟩

/-! ## Further lemmas on the loops -/

theorem stripLoop_eq_none (pfx : String) (files stripped : List String) :
    stripLoop pfx files stripped = none ↔ ∃ f ∈ files, f.length < pfx.length := by
  induction files generalizing stripped with
  | nil => simp [stripLoop]
  | cons f fs ih =>
    by_cases hf : pfx.length ≤ f.length
    · simp only [stripLoop, sliceFrom_of_le f _ hf, ih, List.mem_cons]
      constructor
      · rintro ⟨g, hg, hlt⟩
        exact ⟨g, Or.inr hg, hlt⟩
      · rintro ⟨g, hg | hg, hlt⟩
        · subst hg
          omega
        · exact ⟨g, hg, hlt⟩
    · have hnone : sliceFrom f pfx.length = none := by simp [sliceFrom, hf]
      simp only [stripLoop, hnone, List.mem_cons, true_iff]
      exact ⟨f, Or.inl rfl, by omega⟩

theorem projectPaths_eq_none (lib : Lib) (root : String) (raw : List String) :
    projectPaths lib root raw = none ↔ ∃ f ∈ raw, f.length < root.length := by
  unfold projectPaths StripPathPrefix
  cases h : stripLoop root raw [] with
  | none => simpa using (stripLoop_eq_none root raw []).1 h
  | some stripped =>
    have hne : ¬ ∃ f ∈ raw, f.length < root.length := by
      intro hex
      rw [(stripLoop_eq_none root raw []).2 hex] at h
      exact absurd h (by simp)
    simpa using hne

theorem GenerateConfig_eq_none (lib : Lib) (language root : String) (raw : List String)
    (dsConfig : Option DSConfig) :
    GenerateConfig lib language root raw dsConfig = none ↔ projectPaths lib root raw = none := by
  unfold GenerateConfig
  cases projectPaths lib root raw with
  | none => simp
  | some ps =>
    cases dsConfig with
    | none => simp
    | some ds => simp [FilterFiles_eq]

/-! ## The claims, continued -/

/-- Claim C15. Test classification does not alter the analyzable set.  When every
raw path has the root as a prefix, two runs of `GenerateConfig` that differ in
the test patterns (and in the declared analyzers) return the same `Files` and
the same `ExcludeFiles`, namely the two outputs of `FilterFiles` on the
projected paths and the exclude patterns; every path of `TestFiles` is a path
of `Files`. -/
theorem test_patterns_frame (lib : Lib) (language root : String) (raw : List String)
    (excludes tests1 tests2 : List String) (analyzers1 analyzers2 : List Analyzer)
    (hroot : ∀ f ∈ raw, root.data <+: f.data) :
    ∃ ps c1 c2, projectPaths lib root raw = some ps ∧
      GenerateConfig lib language root raw
        (some { ExcludePatterns := excludes, TestPatterns := tests1, Analyzers := analyzers1 }) =
          some (some c1, none) ∧
      GenerateConfig lib language root raw
        (some { ExcludePatterns := excludes, TestPatterns := tests2, Analyzers := analyzers2 }) =
          some (some c2, none) ∧
      c1.Files = c2.Files ∧ c1.ExcludeFiles = c2.ExcludeFiles ∧
      c1.Files = (FilterFiles lib "/code" ps excludes).1 ∧
      c1.ExcludeFiles = (FilterFiles lib "/code" ps excludes).2.1 ∧
      (∀ x ∈ c1.TestFiles, x ∈ c1.Files) ∧ (∀ x ∈ c2.TestFiles, x ∈ c2.Files) := by
  refine ⟨project lib root raw, _, _, projectPaths_eq lib root raw hroot,
    GenerateConfig_configured lib language root raw _ hroot,
    GenerateConfig_configured lib language root raw _ hroot, rfl, rfl, ?_, ?_, ?_, ?_⟩
  · rw [FilterFiles_eq]
  · rw [FilterFiles_eq]
  · intro x hx
    exact ((mem_classify_snd lib "/code" _ _ x).1 hx).1
  · intro x hx
    exact ((mem_classify_snd lib "/code" _ _ x).1 hx).1

/-- The frame property at the scenario of section 8: with the test pattern
`*_test.go` and with the test pattern `*.go`, `Files` and `ExcludeFiles` are
the same. -/
theorem test_patterns_frame_witness :
    (∀ f ∈ scenarioFiles, "/repo".data <+: f.data) ∧
    ∃ c1 c2,
      GenerateConfig goLib "go" "/repo" scenarioFiles
        (some { ExcludePatterns := ["vendor/**"], TestPatterns := ["*_test.go"],
                Analyzers := [] }) = some (some c1, none) ∧
      GenerateConfig goLib "go" "/repo" scenarioFiles
        (some { ExcludePatterns := ["vendor/**"], TestPatterns := ["*.go"],
                Analyzers := [] }) = some (some c2, none) ∧
      c1.Files = c2.Files ∧ c1.ExcludeFiles = c2.ExcludeFiles := by
  refine ⟨scenario_rooted, ?_⟩
  obtain ⟨ps, c1, c2, -, h1, h2, hf, he, -⟩ :=
    test_patterns_frame goLib "go" "/repo" scenarioFiles ["vendor/**"] ["*_test.go"] ["*.go"]
      [] [] scenario_rooted
  exact ⟨c1, c2, h1, h2, hf, he⟩

/-- Claim C16. Language selector non-interference.  For two language
identifiers and the same root, files and project configuration (present or
absent), the two results of `GenerateConfig` are equal once the per-language
metadata is left out, a panic included; and when every raw path has the root
as a prefix, both runs return configurations with the same `Files`,
`ExcludeFiles`, `ExcludePatterns`, `TestFiles` and `TestPatterns`. -/
theorem language_noninterference (lib : Lib) (language1 language2 root : String)
    (raw : List String) (dsConfig : Option DSConfig) :
    (GenerateConfig lib language1 root raw dsConfig).map
        (fun r => (r.1.map withoutMeta, r.2)) =
      (GenerateConfig lib language2 root raw dsConfig).map
        (fun r => (r.1.map withoutMeta, r.2)) ∧
    ((∀ f ∈ raw, root.data <+: f.data) →
      ∃ c1 c2, GenerateConfig lib language1 root raw dsConfig = some (some c1, none) ∧
        GenerateConfig lib language2 root raw dsConfig = some (some c2, none) ∧
        c1.Files = c2.Files ∧ c1.ExcludeFiles = c2.ExcludeFiles ∧
        c1.ExcludePatterns = c2.ExcludePatterns ∧ c1.TestFiles = c2.TestFiles ∧
        c1.TestPatterns = c2.TestPatterns) := by
  constructor
  · unfold GenerateConfig
    cases projectPaths lib root raw with
    | none => rfl
    | some ps =>
      cases dsConfig with
      | none => rfl
      | some ds =>
        simp only [FilterFiles_eq]
        rw [analyzerLoop_eq _ _ _ rfl, analyzerLoop_eq _ _ _ rfl]
        rfl
  · intro hroot
    cases dsConfig with
    | none =>
      exact ⟨_, _, GenerateConfig_unconfigured lib language1 root raw hroot,
        GenerateConfig_unconfigured lib language2 root raw hroot, rfl, rfl, rfl, rfl, rfl⟩
    | some ds =>
      exact ⟨_, _, GenerateConfig_configured lib language1 root raw ds hroot,
        GenerateConfig_configured lib language2 root raw ds hroot, rfl, rfl, rfl, rfl, rfl⟩

/-- Non-interference at a configuration that declares the analyzer `go`: the
languages `go` and `java` give the same file lists and pattern lists. -/
theorem language_noninterference_witness :
    (∀ f ∈ scenarioFiles, "/repo".data <+: f.data) ∧
    ∃ c1 c2, GenerateConfig goLib "go" "/repo" scenarioFiles (some goAnalyzerConfig) =
        some (some c1, none) ∧
      GenerateConfig goLib "java" "/repo" scenarioFiles (some goAnalyzerConfig) =
        some (some c2, none) ∧
      c1.Files = c2.Files ∧ c1.ExcludeFiles = c2.ExcludeFiles ∧
      c1.ExcludePatterns = c2.ExcludePatterns ∧ c1.TestFiles = c2.TestFiles ∧
      c1.TestPatterns = c2.TestPatterns :=
  ⟨scenario_rooted,
    (language_noninterference goLib "go" "java" "/repo" scenarioFiles
      (some goAnalyzerConfig)).2 scenario_rooted⟩

/-- Claim C17. Slice safety of projection.  The slice expression `s[n:]` is in
bounds exactly when `n ≤ len(s)`; `StripPathPrefix` panics exactly when some
file is shorter than the prefix, and `GenerateConfig` panics exactly then.
Hence, when every raw path has the root as a prefix, neither panics, and a raw
path shorter than the root makes both panic. -/
theorem slice_safety (lib : Lib) (language root : String) (raw : List String)
    (dsConfig : Option DSConfig) :
    (∀ (s : String) (n : Nat), (sliceFrom s n).isSome = true ↔ n ≤ s.length) ∧
    (StripPathPrefix root raw = none ↔ ∃ f ∈ raw, f.length < root.length) ∧
    (GenerateConfig lib language root raw dsConfig = none ↔
      ∃ f ∈ raw, f.length < root.length) ∧
    ((∀ f ∈ raw, root.data <+: f.data) →
      (StripPathPrefix root raw).isSome = true ∧
      (GenerateConfig lib language root raw dsConfig).isSome = true) ∧
    ((∃ f ∈ raw, f.length < root.length) →
      StripPathPrefix root raw = none ∧
      GenerateConfig lib language root raw dsConfig = none) := by
  have hgen : GenerateConfig lib language root raw dsConfig = none ↔
      ∃ f ∈ raw, f.length < root.length :=
    (GenerateConfig_eq_none lib language root raw dsConfig).trans
      (projectPaths_eq_none lib root raw)
  refine ⟨?_, stripLoop_eq_none root raw [], hgen, ?_, ?_⟩
  · intro s n
    unfold sliceFrom
    split <;> simp [*]
  · intro hroot
    have hno : ¬ ∃ f ∈ raw, f.length < root.length := by
      rintro ⟨f, hf, hlt⟩
      have := length_le_of_isPrefix root f (hroot f hf)
      omega
    constructor
    · rw [Option.isSome_iff_ne_none]
      exact fun h => hno ((stripLoop_eq_none root raw []).1 h)
    · rw [Option.isSome_iff_ne_none]
      exact fun h => hno (hgen.1 h)
  · intro hshort
    exact ⟨(stripLoop_eq_none root raw []).2 hshort, hgen.2 hshort⟩

/-- Slice safety at concrete inputs: the files of section 8 are under `/repo`
and are projected; the path `/r` is shorter than the root `/repo` and makes
`StripPathPrefix` and `GenerateConfig` panic. -/
theorem slice_safety_witness :
    ((∀ f ∈ scenarioFiles, "/repo".data <+: f.data) ∧
      (StripPathPrefix "/repo" scenarioFiles).isSome = true ∧
      (GenerateConfig goLib "go" "/repo" scenarioFiles (some scenarioConfig)).isSome = true) ∧
    ((∃ f ∈ ["/repo/a.go", "/r"], f.length < "/repo".length) ∧
      StripPathPrefix "/repo" ["/repo/a.go", "/r"] = none ∧
      GenerateConfig goLib "go" "/repo" ["/repo/a.go", "/r"] (some scenarioConfig) = none) :=
  ⟨⟨scenario_rooted,
      (slice_safety goLib "go" "/repo" scenarioFiles (some scenarioConfig)).2.2.2.1
        scenario_rooted⟩,
    ⟨by decide,
      (slice_safety goLib "go" "/repo" ["/repo/a.go", "/r"] (some scenarioConfig)).2.2.2.2
        (by decide)⟩⟩

/-- Claim C18. Per-path independence.  `FilterFiles` distributes over the
concatenation of file lists: on `xs ++ ys` the kept paths are the kept paths
of `xs` followed by those of `ys`, and likewise for the matched paths. -/
theorem per_path_independence (lib : Lib) (pfx : String) (patterns xs ys : List String) :
    (FilterFiles lib pfx (xs ++ ys) patterns).1 =
      (FilterFiles lib pfx xs patterns).1 ++ (FilterFiles lib pfx ys patterns).1 ∧
    (FilterFiles lib pfx (xs ++ ys) patterns).2.1 =
      (FilterFiles lib pfx xs patterns).2.1 ++ (FilterFiles lib pfx ys patterns).2.1 ∧
    (FilterFiles lib pfx (xs ++ ys) patterns).2.2 = none := by
  refine ⟨?_, ?_, rfl⟩ <;> simp only [FilterFiles_eq, classify, List.filter_append]

/-! ## Lemmas on path elements and on `Clean`

Without a `..` element `Clean` only drops the empty elements and the `.`
elements, so the join of `/code` with a remainder is `/code` followed by the
remaining elements, each introduced by a slash. -/

theorem pathElems_ne_nil (s : List Char) : pathElems s ≠ [] := by
  cases s with
  | nil => simp [pathElems]
  | cons c cs =>
    simp only [pathElems]
    split <;> simp

theorem pathElems_eq (s : List Char) :
    pathElems s = s.takeWhile (fun x => x != '/') ::
      (match s.dropWhile (fun x => x != '/') with
        | [] => []
        | _ :: t => pathElems t) := by
  induction s with
  | nil => simp [pathElems]
  | cons c cs ih =>
    by_cases hc : c = '/'
    · subst hc
      simp [pathElems]
    · have hb : (c != '/') = true := by simpa using hc
      simp only [pathElems, hc, if_false, List.takeWhile_cons, List.dropWhile_cons, hb, if_true]
      rw [ih]
      simp

theorem pathElems_noSlash (s : List Char) : ∀ e ∈ pathElems s, '/' ∉ e := by
  induction s with
  | nil => simp [pathElems]
  | cons c cs ih =>
    by_cases hc : c = '/'
    · subst hc
      simp only [pathElems, if_true, List.mem_cons]
      rintro e (rfl | he)
      · simp
      · exact ih e he
    · simp only [pathElems, hc, if_false, List.mem_cons]
      have hne := pathElems_ne_nil cs
      cases hp : pathElems cs with
      | nil => exact absurd hp hne
      | cons e0 es =>
        rw [hp] at ih
        simp only [List.headD_cons, List.tail_cons]
        rintro e (rfl | he)
        · have := ih e0 (List.mem_cons_self _ _)
          simp only [List.mem_cons, not_or]
          exact ⟨fun h => hc h.symm, this⟩
        · exact ih e (List.mem_cons_of_mem _ he)


theorem pathElems_split (s : List Char) :
    ∃ tl, pathElems s = s.takeWhile (fun x => x != '/') :: tl ∧
      pathElems (s.dropWhile (fun x => x != '/')) = [] :: tl := by
  refine ⟨_, pathElems_eq s, ?_⟩
  induction s with
  | nil => simp [pathElems]
  | cons c cs ih =>
    by_cases hc : c = '/'
    · subst hc
      simp [pathElems]
    · have hb : (c != '/') = true := by simpa using hc
      simpa only [List.dropWhile_cons, hb, if_true] using ih

theorem realElems_nil : realElems [] = [] := by
  simp [realElems, pathElems]

theorem renderElems_cons (e : List Char) (es : List (List Char)) :
    renderElems (e :: es) = '/' :: (e ++ renderElems es) := by
  simp [renderElems]

theorem cleanLoop_nil (rooted : Bool) (fuel : Nat) (out : List Char) (dotdot : Nat) :
    cleanLoop rooted fuel [] out dotdot = out := by
  cases fuel <;> rfl

theorem cleanLoop_noDotDot (fuel : Nat) (s out : List Char) (dotdot : Nat)
    (hlen : s.length ≤ fuel) (hout : 2 ≤ out.length) (hdd : ['.', '.'] ∉ pathElems s) :
    cleanLoop true fuel s out dotdot = out ++ renderElems (realElems s) := by
  induction fuel generalizing s out with
  | zero =>
    have hnil : s = [] := List.length_eq_zero.mp (Nat.le_zero.mp hlen)
    subst hnil
    simp [cleanLoop, realElems_nil, renderElems]
  | succ n ih =>
    cases s with
    | nil => simp [cleanLoop, realElems_nil, renderElems]
    | cons c cs =>
      have hcs : cs.length ≤ n := by simpa using hlen
      simp only [cleanLoop]
      by_cases h1 : c = '/'
      · subst h1
        have hp : pathElems ('/' :: cs) = [] :: pathElems cs := by simp [pathElems]
        have hdd2 : ['.', '.'] ∉ pathElems cs := by
          intro h
          exact hdd (by rw [hp]; exact List.mem_cons_of_mem _ h)
        rw [if_pos rfl, ih cs out hcs hout hdd2]
        simp [realElems, hp]
      · rw [if_neg h1]
        obtain ⟨tl, hsplit, hdrop⟩ := pathElems_split (c :: cs)
        have hb : (c != '/') = true := by simpa using h1
        have htake : List.takeWhile (fun x => x != '/') (c :: cs) =
            c :: List.takeWhile (fun x => x != '/') cs := by
          simp only [List.takeWhile_cons, hb, if_true]
        have hdropEq : List.dropWhile (fun x => x != '/') (c :: cs) =
            List.dropWhile (fun x => x != '/') cs := by
          simp only [List.dropWhile_cons, hb, if_true]
        have hdd2 : ['.', '.'] ∉ pathElems (List.dropWhile (fun x => x != '/') (c :: cs)) := by
          intro h
          rw [hdrop] at h
          rcases List.mem_cons.1 h with h0 | h0
          · exact absurd h0 (by simp)
          · exact hdd (by rw [hsplit]; exact List.mem_cons_of_mem _ h0)
        have hreal : realElems (List.dropWhile (fun x => x != '/') (c :: cs)) =
            tl.filter (fun e => decide (e ≠ [] ∧ e ≠ ['.'])) := by
          simp [realElems, hdrop]
        by_cases h2 : c = '.' ∧ (cs = [] ∨ cs.head? = some '/')
        · rw [if_pos h2]
          obtain ⟨hc, hcs2⟩ := h2
          subst hc
          have hcsdrop : List.dropWhile (fun x => x != '/') cs = cs := by
            rcases hcs2 with h | h
            · subst h; rfl
            · cases cs with
              | nil => rfl
              | cons d t =>
                simp only [List.head?_cons, Option.some.injEq] at h
                subst h
                simp
          have htk : List.takeWhile (fun x => x != '/') cs = [] := by
            rcases hcs2 with h | h
            · subst h; rfl
            · cases cs with
              | nil => rfl
              | cons d t =>
                simp only [List.head?_cons, Option.some.injEq] at h
                subst h
                simp
          rw [hdropEq, hcsdrop] at hdd2 hreal
          rw [ih cs out hcs hout hdd2, hreal]
          simp [realElems, hsplit, htake, htk]
        · rw [if_neg h2]
          by_cases h3 : c = '.' ∧ cs.head? = some '.' ∧
              (cs.tail = [] ∨ cs.tail.head? = some '/')
          · exfalso
            obtain ⟨hc, hhead, htail⟩ := h3
            subst hc
            cases cs with
            | nil => simp at hhead
            | cons d t =>
              simp only [List.head?_cons, Option.some.injEq] at hhead
              subst hhead
              simp only [List.tail_cons] at htail
              apply hdd
              rw [hsplit]
              have : List.takeWhile (fun x => x != '/') ('.' :: '.' :: t) = ['.', '.'] := by
                rcases htail with h | h
                · subst h; rfl
                · cases t with
                  | nil => rfl
                  | cons d2 t2 =>
                    simp only [List.head?_cons, Option.some.injEq] at h
                    subst h
                    simp
              rw [this]
              exact List.mem_cons_self _ _
          · rw [if_neg h3]
            have hne1 : out.length ≠ 1 := by omega
            have hdl : (List.dropWhile (fun x => x != '/') (c :: cs)).length ≤ n := by
              rw [hdropEq]
              exact (dropWhile_length_le _ cs).trans hcs
            have hcond : (True ∧ out.length ≠ 1) ∨ (¬ True ∧ out.length ≠ 0) :=
              Or.inl ⟨trivial, hne1⟩
            rw [if_pos hcond]
            have hout2 : 2 ≤ (out ++ ['/'] ++
                List.takeWhile (fun x => x != '/') (c :: cs)).length := by
              simp only [List.length_append]
              omega
            rw [ih _ _ hdl hout2 hdd2, hreal]
            have hreal1 : decide (List.takeWhile (fun x => x != '/') (c :: cs) ≠ [] ∧
                List.takeWhile (fun x => x != '/') (c :: cs) ≠ ['.']) = true := by
              rw [htake]
              simp only [ne_eq, decide_eq_true_eq]
              refine ⟨by simp, ?_⟩
              intro h
              simp only [List.cons.injEq] at h
              obtain ⟨hc, htk⟩ := h
              apply h2
              refine ⟨hc, ?_⟩
              cases cs with
              | nil => exact Or.inl rfl
              | cons d t =>
                right
                by_cases hd : d = '/'
                · simp [hd]
                · have hdb : (d != '/') = true := by simpa using hd
                  simp [List.takeWhile_cons, hdb] at htk
            have hrs : realElems (c :: cs) =
                List.takeWhile (fun x => x != '/') (c :: cs) ::
                  tl.filter (fun e => decide (e ≠ [] ∧ e ≠ ['.'])) := by
              rw [realElems, hsplit, List.filter_cons, if_pos hreal1]
            rw [hrs, renderElems_cons]
            simp


theorem pathElems_slash (cs : List Char) : pathElems ('/' :: cs) = [] :: pathElems cs := by
  simp [pathElems]

theorem realElems_slash (cs : List Char) : realElems ('/' :: cs) = realElems cs := by
  simp [realElems, pathElems_slash]

theorem Join_code_eq_Clean (r : String) :
    Join ["/code", r] = Clean (String.mk ('/' :: 'c' :: 'o' :: 'd' :: 'e' :: '/' :: r.data)) := by
  have h5 : "/code".length = 5 := rfl
  have hd : "/code".data = ['/', 'c', 'o', 'd', 'e'] := rfl
  have hne : "/code" ≠ "" := by decide
  simp [Join, h5, hd, hne]

theorem Clean_code (r : List Char) (hdd : ['.', '.'] ∉ pathElems r) :
    Clean (String.mk ('/' :: 'c' :: 'o' :: 'd' :: 'e' :: '/' :: r)) =
      String.mk ('/' :: 'c' :: 'o' :: 'd' :: 'e' :: renderElems (realElems r)) := by
  have hne : String.mk ('/' :: 'c' :: 'o' :: 'd' :: 'e' :: '/' :: r) ≠ "" := by
    intro h
    have := congrArg String.data h
    simp at this
  have hdd2 : ['.', '.'] ∉ pathElems ('/' :: r) := by
    rw [pathElems_slash]
    intro h
    rcases List.mem_cons.1 h with h0 | h0
    · exact absurd h0 (by simp)
    · exact hdd h0
  have hstep : cleanLoop true (r.length + 6) ('c' :: 'o' :: 'd' :: 'e' :: '/' :: r) ['/'] 1 =
      cleanLoop true (r.length + 5) ('/' :: r) ['/', 'c', 'o', 'd', 'e'] 1 := by
    simp [cleanLoop]
  unfold Clean
  rw [if_neg hne]
  simp only [String.length, List.length_cons, List.head?_cons, decide_True, if_true,
    List.drop_succ_cons, List.drop_zero]
  rw [hstep, cleanLoop_noDotDot _ _ _ _ (by simp) (by simp) hdd2, realElems_slash]
  simp


theorem pathElems_append_noSlash (e y : List Char) (he : '/' ∉ e) :
    pathElems (e ++ y) = (e ++ (pathElems y).headD []) :: (pathElems y).tail := by
  induction e with
  | nil =>
    cases hp : pathElems y with
    | nil => exact absurd hp (pathElems_ne_nil y)
    | cons a l => simp [hp]
  | cons c e ih =>
    have hc : c ≠ '/' := fun h => he (by simp [h])
    have he2 : '/' ∉ e := fun h => he (List.mem_cons_of_mem _ h)
    have hstep : pathElems (c :: (e ++ y)) =
        (c :: (pathElems (e ++ y)).headD []) :: (pathElems (e ++ y)).tail := by
      simp [pathElems, hc]
    rw [List.cons_append, hstep, ih he2]
    simp

theorem pathElems_renderElems (es : List (List Char)) (hes : ∀ e ∈ es, '/' ∉ e) :
    pathElems (renderElems es) = [] :: es := by
  induction es with
  | nil => simp [renderElems, pathElems]
  | cons e es ih =>
    have he : '/' ∉ e := hes e (List.mem_cons_self _ _)
    have hes2 : ∀ x ∈ es, '/' ∉ x := fun x hx => hes x (List.mem_cons_of_mem _ hx)
    rw [renderElems_cons, pathElems_slash, pathElems_append_noSlash _ _ he, ih hes2]
    simp

theorem mem_realElems (s e : List Char) :
    e ∈ realElems s ↔ e ∈ pathElems s ∧ e ≠ [] ∧ e ≠ ['.'] := by
  simp [realElems, List.mem_filter]

theorem realElems_renderElems_realElems (s : List Char) :
    realElems (renderElems (realElems s)) = realElems s := by
  have hns : ∀ e ∈ realElems s, '/' ∉ e :=
    fun e he => pathElems_noSlash s e ((mem_realElems s e).1 he).1
  rw [realElems, pathElems_renderElems _ hns, List.filter_cons]
  simp only [ne_eq, not_true_eq_false, false_and, decide_False, Bool.false_eq_true, if_false]
  rw [List.filter_eq_self]
  intro e he
  have := (mem_realElems s e).1 he
  simpa using this.2

theorem noDotDot_renderElems_realElems (s : List Char) (hdd : ['.', '.'] ∉ pathElems s) :
    ['.', '.'] ∉ pathElems (renderElems (realElems s)) := by
  have hns : ∀ e ∈ realElems s, '/' ∉ e :=
    fun e he => pathElems_noSlash s e ((mem_realElems s e).1 he).1
  rw [pathElems_renderElems _ hns]
  intro h
  rcases List.mem_cons.1 h with h0 | h0
  · exact absurd h0 (by simp)
  · exact hdd ((mem_realElems s _).1 h0).1

theorem Join_code (r : String) (hdd : ['.', '.'] ∉ pathElems r.data) :
    Join ["/code", r] = String.mk ("/code".data ++ renderElems (realElems r.data)) := by
  rw [Join_code_eq_Clean, Clean_code _ hdd]
  rfl

theorem Join_code_idempotent (r : String) (hdd : ['.', '.'] ∉ pathElems r.data) :
    Join ["/code", String.mk ((Join ["/code", r]).data.drop "/code".length)] =
      Join ["/code", r] := by
  have hdrop : (Join ["/code", r]).data.drop "/code".length =
      renderElems (realElems r.data) := by
    rw [Join_code r hdd]
    exact List.drop_left _ _
  rw [hdrop, Join_code (String.mk (renderElems (realElems r.data)))
    (noDotDot_renderElems_realElems _ hdd), Join_code r hdd]
  show String.mk ("/code".data ++ renderElems (realElems (renderElems (realElems r.data)))) = _
  rw [realElems_renderElems_realElems]

theorem Join_code_cleanRemainder (r : String) (h : cleanRemainder r.data) :
    Join ["/code", r] = String.mk ("/code".data ++ r.data) := by
  rw [Join_code r h.1, ← h.2]

theorem matchToks_lits (cs name : List Char) :
    matchToks (cs.map Tok.lit) name = decide (name = cs) := by
  induction cs generalizing name with
  | nil => cases name <;> simp [matchToks]
  | cons c cs ih =>
    cases name with
    | nil =>
      cases cs with
      | nil => simp [matchToks, zeroLength]
      | cons d ds =>
        cases ds <;> simp [matchToks, zeroLength]
    | cons n ns =>
      simp only [List.map_cons, matchToks, ih]
      by_cases h : c = n
      · simp [h]
      · have h2 : ¬ n = c := fun e => h e.symm
        simp [h, h2]

theorem Match_code (name : String) : Match "/code" name = (decide (name = "/code"), none) := by
  have h : Match "/code" name = (matchToks ("/code".data.map Tok.lit) name.data, none) := rfl
  rw [h, matchToks_lits]
  congr 1
  rw [decide_eq_decide]
  exact String.ext_iff.symm

theorem scenario_noDotDot :
    ∀ f ∈ scenarioFiles, ['.', '.'] ∉ pathElems (f.data.drop "/repo".length) := by
  decide

theorem filepathJoin_begins_with_code (r : String) (hdd : ['.', '.'] ∉ pathElems r.data) :
    "/code".data <+: (goLib.filepathJoin "/code" r).data ∧
    (goLib.filepathJoin "/code" r = "/code" ∨
      "/code/".data <+: (goLib.filepathJoin "/code" r).data) := by
  have h : goLib.filepathJoin "/code" r =
      String.mk ("/code".data ++ renderElems (realElems r.data)) := Join_code r hdd
  rw [h]
  refine ⟨List.prefix_append _ _, ?_⟩
  cases hes : realElems r.data with
  | nil => left; rfl
  | cons e es =>
    right
    rw [renderElems_cons]
    exact ⟨e ++ renderElems es, rfl⟩

/-! ## The claims on the path projector -/

/-- Claim C11, as the claim states it, fails: the raw path `/repo/../codex/y` has
the root `/repo` as a prefix and is projected to `/codex/y`; projecting that
again with the root `/code` gives `/code/x/y`.  The raw path `/repo/../x` is
projected to `/x`, which is shorter than `/code`, so that projecting it again
panics. -/
theorem projection_idempotent_counterexample :
    (∀ f ∈ ["/repo/../codex/y", "/repo/../x"], "/repo".data <+: f.data) ∧
    projectPaths goLib "/repo" ["/repo/../codex/y"] = some ["/codex/y"] ∧
    projectPaths goLib "/code" ["/codex/y"] = some ["/code/x/y"] ∧
    project goLib "/code" (project goLib "/repo" ["/repo/../codex/y"]) ≠
      project goLib "/repo" ["/repo/../codex/y"] ∧
    projectPaths goLib "/repo" ["/repo/../x"] = some ["/x"] ∧
    projectPaths goLib "/code" ["/x"] = none := by
  refine ⟨by decide, rfl, rfl, by decide, rfl, rfl⟩

/-- Claim C11, amended.  On the model of `filepath.Join`: when every raw path has
the root as a prefix and its remainder after the root has no `..` element,
the projected paths begin with `/code`, and projecting them again with the
mount prefix `/code` as the root returns them unchanged. -/
theorem projection_idempotent (root : String) (raw : List String)
    (hroot : ∀ f ∈ raw, root.data <+: f.data)
    (hdd : ∀ f ∈ raw, ['.', '.'] ∉ pathElems (f.data.drop root.length)) :
    ∃ ps, projectPaths goLib root raw = some ps ∧
      ps = raw.map (fun f => goLib.filepathJoin "/code" (String.mk (f.data.drop root.length))) ∧
      projectPaths goLib "/code" ps = some ps ∧
      ps.map (fun p => goLib.filepathJoin "/code" (String.mk (p.data.drop "/code".length))) =
        ps := by
  have hpre : ∀ p ∈ project goLib root raw, "/code".data <+: p.data := by
    intro p hp
    simp only [project, List.mem_map] at hp
    obtain ⟨f, hf, rfl⟩ := hp
    exact (filepathJoin_begins_with_code _ (hdd f hf)).1
  have hmap : (project goLib root raw).map
      (fun p => goLib.filepathJoin "/code" (String.mk (p.data.drop "/code".length))) =
      project goLib root raw := by
    simp only [project, List.map_map]
    apply List.map_congr_left
    intro f hf
    exact Join_code_idempotent (String.mk (f.data.drop root.length)) (hdd f hf)
  refine ⟨project goLib root raw, projectPaths_eq goLib root raw hroot, rfl, ?_, hmap⟩
  rw [projectPaths_eq goLib "/code" _ hpre]
  exact congrArg some hmap

/-- Idempotence at the files of section 8. -/
theorem projection_idempotent_witness :
    (∀ f ∈ scenarioFiles, "/repo".data <+: f.data) ∧
    (∀ f ∈ scenarioFiles, ['.', '.'] ∉ pathElems (f.data.drop "/repo".length)) ∧
    projectPaths goLib "/repo" scenarioFiles =
      some ["/code/a.go", "/code/vendor/x.go", "/code/a_test.go"] ∧
    ∃ ps, projectPaths goLib "/repo" scenarioFiles = some ps ∧
      ps = scenarioFiles.map
        (fun f => goLib.filepathJoin "/code" (String.mk (f.data.drop "/repo".length))) ∧
      projectPaths goLib "/code" ps = some ps ∧
      ps.map (fun p => goLib.filepathJoin "/code" (String.mk (p.data.drop "/code".length))) =
        ps :=
  ⟨scenario_rooted, scenario_noDotDot, rfl,
    projection_idempotent "/repo" scenarioFiles scenario_rooted scenario_noDotDot⟩

/-- Claim C12, as the claim states it, fails: the raw path `/repo/../x` has the
root `/repo` as a prefix, and its projected path is `/x`, which does not begin
with `/code`; `GenerateConfig` reports it in `Files`. -/
theorem mount_prefix_counterexample :
    "/repo".data <+: "/repo/../x".data ∧
    goLib.filepathJoin "/code" (String.mk ("/repo/../x".data.drop "/repo".length)) = "/x" ∧
    ¬ "/code".data <+: "/x".data ∧
    ∃ cfg, GenerateConfig goLib "go" "/repo" ["/repo/../x"] none = some (some cfg, none) ∧
      cfg.Files = ["/x"] := by
  refine ⟨by decide, rfl, by decide, _, rfl, rfl⟩

/-- Claim C12, amended.  On the model of `filepath.Join`: when every raw path has
the root as a prefix and its remainder after the root has no `..` element,
every projected path begins with the mount prefix `/code` (it is `/code` or
begins with `/code/`), `GenerateConfig` returns a configuration, and every
element of `Files`, `ExcludeFiles` and `TestFiles` begins with `/code`. -/
theorem mount_prefix_invariant (language root : String) (raw : List String)
    (dsConfig : Option DSConfig) (hroot : ∀ f ∈ raw, root.data <+: f.data)
    (hdd : ∀ f ∈ raw, ['.', '.'] ∉ pathElems (f.data.drop root.length)) :
    (∀ f ∈ raw,
      "/code".data <+:
        (goLib.filepathJoin "/code" (String.mk (f.data.drop root.length))).data ∧
      (goLib.filepathJoin "/code" (String.mk (f.data.drop root.length)) = "/code" ∨
        "/code/".data <+:
          (goLib.filepathJoin "/code" (String.mk (f.data.drop root.length))).data)) ∧
    ∃ ps cfg, projectPaths goLib root raw = some ps ∧
      (∀ p ∈ ps, "/code".data <+: p.data) ∧
      GenerateConfig goLib language root raw dsConfig = some (some cfg, none) ∧
      (∀ x ∈ cfg.Files, "/code".data <+: x.data) ∧
      (∀ x ∈ cfg.ExcludeFiles, "/code".data <+: x.data) ∧
      (∀ x ∈ cfg.TestFiles, "/code".data <+: x.data) := by
  have hpre : ∀ p ∈ project goLib root raw, "/code".data <+: p.data := by
    intro p hp
    simp only [project, List.mem_map] at hp
    obtain ⟨f, hf, rfl⟩ := hp
    exact (filepathJoin_begins_with_code _ (hdd f hf)).1
  refine ⟨fun f hf => filepathJoin_begins_with_code _ (hdd f hf), project goLib root raw, ?_⟩
  cases dsConfig with
  | none =>
    refine ⟨_, projectPaths_eq goLib root raw hroot, hpre,
      GenerateConfig_unconfigured goLib language root raw hroot, hpre, ?_, ?_⟩
    · intro x hx
      exact absurd hx (List.not_mem_nil x)
    · intro x hx
      exact absurd hx (List.not_mem_nil x)
  | some ds =>
    refine ⟨_, projectPaths_eq goLib root raw hroot, hpre,
      GenerateConfig_configured goLib language root raw ds hroot, ?_, ?_, ?_⟩
    · intro x hx
      exact hpre x ((mem_classify_fst goLib "/code" _ _ x).1 hx).1
    · intro x hx
      exact hpre x ((mem_classify_snd goLib "/code" _ _ x).1 hx).1
    · intro x hx
      have hx1 := ((mem_classify_snd goLib "/code" _ _ x).1 hx).1
      exact hpre x ((mem_classify_fst goLib "/code" _ _ x).1 hx1).1

/-- The mount-prefix invariant at the scenario of section 8. -/
theorem mount_prefix_invariant_witness :
    (∀ f ∈ scenarioFiles, "/repo".data <+: f.data) ∧
    (∀ f ∈ scenarioFiles, ['.', '.'] ∉ pathElems (f.data.drop "/repo".length)) ∧
    ∃ ps cfg, projectPaths goLib "/repo" scenarioFiles = some ps ∧
      (∀ p ∈ ps, "/code".data <+: p.data) ∧
      GenerateConfig goLib "go" "/repo" scenarioFiles (some scenarioConfig) =
        some (some cfg, none) ∧
      (∀ x ∈ cfg.Files, "/code".data <+: x.data) ∧
      (∀ x ∈ cfg.ExcludeFiles, "/code".data <+: x.data) ∧
      (∀ x ∈ cfg.TestFiles, "/code".data <+: x.data) :=
  ⟨scenario_rooted, scenario_noDotDot,
    (mount_prefix_invariant "go" "/repo" scenarioFiles (some scenarioConfig) scenario_rooted
      scenario_noDotDot).2⟩

/-- Claim C13, as the claim states it, fails: the raw paths `/repo/a.go` and
`/repo//a.go` both have the root `/repo` as a prefix and are different, and
both are projected to `/code/a.go`; so is the raw path `/repoa.go`, which has
the string `/repo` as a prefix without lying under the directory `/repo`. -/
theorem projection_injective_counterexample :
    "/repo".data <+: "/repo/a.go".data ∧ "/repo".data <+: "/repo//a.go".data ∧
    goLib.filepathJoin "/code" (String.mk ("/repo/a.go".data.drop "/repo".length)) =
      "/code/a.go" ∧
    goLib.filepathJoin "/code" (String.mk ("/repo//a.go".data.drop "/repo".length)) =
      "/code/a.go" ∧
    "/repo/a.go" ≠ "/repo//a.go" ∧
    "/repo".data <+: "/repoa.go".data ∧
    goLib.filepathJoin "/code" (String.mk ("/repoa.go".data.drop "/repo".length)) =
      "/code/a.go" ∧
    "/repo/a.go" ≠ "/repoa.go" := by
  refine ⟨by decide, by decide, rfl, rfl, by decide, by decide, rfl, by decide⟩

/-- Claim C13, amended.  On the model of `filepath.Join`: for a fixed root and two
raw paths that are the root followed by a clean remainder (no `..` element,
and nothing but elements that are neither empty nor `.`, each introduced by a
single slash), the projected path is `/code` followed by the remainder, and
the projected paths are equal exactly when the raw paths are equal. -/
theorem projection_injective (root a b : String)
    (ha : root.data <+: a.data) (hb : root.data <+: b.data)
    (hca : cleanRemainder (a.data.drop root.length))
    (hcb : cleanRemainder (b.data.drop root.length)) :
    goLib.filepathJoin "/code" (String.mk (a.data.drop root.length)) =
      String.mk ("/code".data ++ a.data.drop root.length) ∧
    (goLib.filepathJoin "/code" (String.mk (a.data.drop root.length)) =
        goLib.filepathJoin "/code" (String.mk (b.data.drop root.length)) ↔ a = b) := by
  have hja : goLib.filepathJoin "/code" (String.mk (a.data.drop root.length)) =
      String.mk ("/code".data ++ a.data.drop root.length) :=
    Join_code_cleanRemainder (String.mk (a.data.drop root.length)) hca
  have hjb : goLib.filepathJoin "/code" (String.mk (b.data.drop root.length)) =
      String.mk ("/code".data ++ b.data.drop root.length) :=
    Join_code_cleanRemainder (String.mk (b.data.drop root.length)) hcb
  refine ⟨hja, ?_, ?_⟩
  · intro h
    rw [hja, hjb] at h
    have h2 : a.data.drop root.length = b.data.drop root.length :=
      List.append_cancel_left (congrArg String.data h)
    obtain ⟨ta, hta⟩ := ha
    obtain ⟨tb, htb⟩ := hb
    have hda : a.data.drop root.length = ta := by
      rw [← hta]
      exact List.drop_left _ _
    have hdb : b.data.drop root.length = tb := by
      rw [← htb]
      exact List.drop_left _ _
    apply String.ext
    rw [← hta, ← htb, ← hda, ← hdb, h2]
  · intro h
    rw [h]

/-- Injectivity at two files under `/repo`: the projected paths of
`/repo/a.go` and `/repo/vendor/x.go` are `/code/a.go` and `/code/vendor/x.go`,
and they differ as the raw paths do. -/
theorem projection_injective_witness :
    "/repo".data <+: "/repo/a.go".data ∧ "/repo".data <+: "/repo/vendor/x.go".data ∧
    cleanRemainder ("/repo/a.go".data.drop "/repo".length) ∧
    cleanRemainder ("/repo/vendor/x.go".data.drop "/repo".length) ∧
    goLib.filepathJoin "/code" (String.mk ("/repo/a.go".data.drop "/repo".length)) =
      String.mk ("/code".data ++ "/repo/a.go".data.drop "/repo".length) ∧
    (goLib.filepathJoin "/code" (String.mk ("/repo/a.go".data.drop "/repo".length)) =
        goLib.filepathJoin "/code" (String.mk ("/repo/vendor/x.go".data.drop "/repo".length)) ↔
      "/repo/a.go" = "/repo/vendor/x.go") :=
  ⟨by decide, by decide, by decide, by decide,
    projection_injective "/repo" "/repo/a.go" "/repo/vendor/x.go" (by decide) (by decide)
      (by decide) (by decide)⟩

/-- Claim C14. Degenerate root path.  On the model of `filepath.Join`: for every
root, `StripPathPrefix` turns a raw path equal to the root into the empty
string, and the join of `/code` with the empty string is `/code`, so the path
is projected to `/code`, wherever it stands in the list.  `GenerateConfig`
returns a configuration and the nil error; without a project configuration
`Files` is `[/code]`, and with one the path `/code` is classified by
`FilterFiles` like any other path: it is in `Files` or in `ExcludeFiles`. -/
theorem degenerate_root_path (language root : String) :
    sliceFrom root root.length = some "" ∧
    StripPathPrefix root [root] = some [""] ∧
    goLib.filepathJoin "/code" "" = "/code" ∧
    projectPaths goLib root [root] = some ["/code"] ∧
    (∀ before after : List String,
      project goLib root (before ++ root :: after) =
        project goLib root before ++ "/code" :: project goLib root after) ∧
    GenerateConfig goLib language root [root] none =
      some (some
        { Files := ["/code"]
          ExcludePatterns := []
          ExcludeFiles := []
          TestFiles := []
          TestPatterns := []
          AnalyzerMeta := defaultMeta language }, none) ∧
    (∀ ds : DSConfig, ∃ cfg,
      GenerateConfig goLib language root [root] (some ds) = some (some cfg, none) ∧
      cfg.Files = (FilterFiles goLib "/code" ["/code"] ds.ExcludePatterns).1 ∧
      cfg.ExcludeFiles = (FilterFiles goLib "/code" ["/code"] ds.ExcludePatterns).2.1 ∧
      (cfg.Files = ["/code"] ∧ cfg.ExcludeFiles = [] ∨
        cfg.Files = [] ∧ cfg.ExcludeFiles = ["/code"])) := by
  have hdrop : String.mk (root.data.drop root.length) = "" := by
    show String.mk (List.drop root.data.length root.data) = ""
    rw [List.drop_length]
  have hslice : sliceFrom root root.length = some "" := by
    rw [sliceFrom_of_le root _ (Nat.le_refl _), hdrop]
  have hjoin : goLib.filepathJoin "/code" "" = "/code" := rfl
  have hone : goLib.filepathJoin "/code" (String.mk (root.data.drop root.length)) = "/code" := by
    rw [hdrop, hjoin]
  have hroot : ∀ f ∈ [root], root.data <+: f.data := by
    intro f hf
    rw [List.mem_singleton] at hf
    rw [hf]
  have hproj : project goLib root [root] = ["/code"] := by
    simp only [project, List.map_cons, List.map_nil, hone]
  refine ⟨hslice, ?_, hjoin, ?_, ?_, ?_, ?_⟩
  · simp only [StripPathPrefix, stripLoop, hslice, List.nil_append]
  · rw [projectPaths_eq goLib root [root] hroot, hproj]
  · intro before after
    simp only [project, List.map_append, List.map_cons, hone]
  · rw [GenerateConfig_unconfigured goLib language root [root] hroot, hproj]
  · intro ds
    refine ⟨_, GenerateConfig_configured goLib language root [root] ds hroot, ?_, ?_, ?_⟩
    · rw [FilterFiles_eq, hproj]
    · rw [FilterFiles_eq, hproj]
    · rw [hproj]
      cases hm : matchesAny goLib "/code" ds.ExcludePatterns "/code" with
      | false =>
        left
        simp [classify, hm]
      | true =>
        right
        simp [classify, hm]

theorem vendor_joins_agree :
    goLib.pathJoin "/code" "vendor/**" = goLib.pathJoin "/code" "./vendor/**" :=
  @Eq.trans _ _ "/code/vendor/**" _ rfl rfl

/-- Claim C19. Pattern normalisation by joining.  `FilterFiles` sees a pattern
only through its join onto the prefix: two patterns with the same join
classify every file list identically, whatever the other patterns.  On the
model of `path.Join` and `doublestar.Match`: the patterns `vendor/**`,
`/vendor/**`, `./vendor/**` and `vendor//**` all join to `/code/vendor/**`;
the empty pattern joins to `/code`, which matches the path `/code` and no
other; the pattern `../secret/**` joins to `/secret/**`, which does not begin
with `/code` and matches a path outside the mount prefix. -/
theorem pattern_normalisation (lib : Lib) (pfx : String) (files before after : List String)
    (p q : String) (hjoin : lib.pathJoin pfx p = lib.pathJoin pfx q) :
    FilterFiles lib pfx files (before ++ p :: after) =
      FilterFiles lib pfx files (before ++ q :: after) ∧
    (goLib.pathJoin "/code" "vendor/**" = "/code/vendor/**" ∧
      goLib.pathJoin "/code" "/vendor/**" = "/code/vendor/**" ∧
      goLib.pathJoin "/code" "./vendor/**" = "/code/vendor/**" ∧
      goLib.pathJoin "/code" "vendor//**" = "/code/vendor/**") ∧
    goLib.pathJoin "/code" "" = "/code" ∧
    (∀ name : String,
      (goLib.doublestarMatch (goLib.pathJoin "/code" "") name).1 = true ↔ name = "/code") ∧
    (∀ paths : List String,
      FilterFiles goLib "/code" paths [""] =
        (paths.filter (fun f => !decide (f = "/code")),
          paths.filter (fun f => decide (f = "/code")), none)) ∧
    (goLib.pathJoin "/code" "../secret/**" = "/secret/**" ∧
      ¬ "/code".data <+: (goLib.pathJoin "/code" "../secret/**").data ∧
      FilterFiles goLib "/code" ["/secret/key", "/code/a.go"] ["../secret/**"] =
        (["/code/a.go"], ["/secret/key"], none)) := by
  have hempty : ∀ name : String,
      (goLib.doublestarMatch (goLib.pathJoin "/code" "") name).1 = decide (name = "/code") := by
    intro name
    show (Match "/code" name).1 = decide (name = "/code")
    rw [Match_code]
  refine ⟨?_, ⟨rfl, rfl, rfl, rfl⟩, rfl, ?_, ?_, ⟨rfl, by decide, rfl⟩⟩
  · simp only [FilterFiles_eq, classify, matchesAny, List.any_append, List.any_cons, hjoin]
  · intro name
    rw [hempty]
    simp
  · intro paths
    have hany : ∀ f, matchesAny goLib "/code" [""] f = decide (f = "/code") := by
      intro f
      simp only [matchesAny, List.any_cons, List.any_nil, Bool.or_false, hempty]
    simp only [FilterFiles_eq, classify, hany]

/-- Normalisation on the model of the library: `vendor/**` and `./vendor/**`
have the same join onto `/code` and classify the projected files of section 8
in the same way. -/
theorem pattern_normalisation_witness :
    goLib.pathJoin "/code" "vendor/**" = goLib.pathJoin "/code" "./vendor/**" ∧
    FilterFiles goLib "/code" ["/code/a.go", "/code/vendor/x.go", "/code/a_test.go"]
        ["vendor/**"] =
      FilterFiles goLib "/code" ["/code/a.go", "/code/vendor/x.go", "/code/a_test.go"]
        ["./vendor/**"] ∧
    FilterFiles goLib "/code" ["/code/a.go", "/code/vendor/x.go", "/code/a_test.go"]
        ["./vendor/**"] =
      (["/code/a.go", "/code/a_test.go"], ["/code/vendor/x.go"], none) :=
  ⟨vendor_joins_agree,
    (pattern_normalisation goLib "/code"
      ["/code/a.go", "/code/vendor/x.go", "/code/a_test.go"] [] [] "vendor/**" "./vendor/**"
      vendor_joins_agree).1,
    rfl⟩

end Configgen
